import Mathlib

/-!
Shallow embedding of the incremental grouping-and-regression engine of the
rdm4lab repository (apps G1 and G3), together with theorems settling the
frozen claims about it.

Conventions of the embedding:
* Physical quantities are represented by their magnitudes as rationals (`ℚ`).
  The source stores them as pint strings; string formatting is canonical in
  the source (`f"{q:~}"`), so equality of stored strings corresponds to
  equality of magnitudes.
* Nullable values (Python `None`) are `Option` values.
* A Python step that raises an exception which the source catches and ignores
  (or that aborts the mutation of a dict midway) is modelled by returning the
  record unchanged up to the fields assigned before the raising statement.
* `np.log` / `np.log10` are external library primitives; the control flow of
  the source never depends on their values, so they are threaded through the
  definitions as function parameters `lnFn log10Fn : ℚ → ℚ`.
* A NaN produced by a 0/0 in an R² computation is represented by `none`.
-/

/-- `seqOption l = some l'` iff no entry of `l` is `none`.  Models the Python
list comprehensions `[Q_(x).magnitude for x in l]`, which raise on a `None`
entry. -/
def seqOption {α : Type} : List (Option α) → Option (List α)
  | [] => some []
  | none :: _ => none
  | some a :: t => (seqOption t).map (a :: ·)

/-- Sum of squares `Σ xᵢ²`. -/
def sumSq (xs : List ℚ) : ℚ := (xs.map fun a => a * a).sum

/-- Dot product `Σ xᵢ·yᵢ` (as `np.sum(x*y)` over zipped arrays). -/
def dotL (xs ys : List ℚ) : ℚ := (List.zipWith (· * ·) xs ys).sum

/-- `np.mean`. For the empty list this is the junk value `0` (the source never
takes a mean of an empty array on the paths modelled here). -/
def meanL (xs : List ℚ) : ℚ := xs.sum / xs.length

/-- Residual sum of squares `Σ (yᵢ - m·xᵢ)²` of the zero-intercept line. -/
def ssRes (xs ys : List ℚ) (m : ℚ) : ℚ :=
  (List.zipWith (fun a b => (b - m * a) * (b - m * a)) xs ys).sum

/-- Total sum of squares `Σ (yᵢ - mean y)²`. -/
def ssTot (ys : List ℚ) : ℚ := (ys.map fun b => (b - meanL ys) * (b - meanL ys)).sum

/-- Least-squares slope of the zero-intercept model `y = m·x`
(`curve_fit(lin_func, x, y)` of `G1/analysis.py` and `G3/analysis.py`):
`m = Σxy / Σx²`.  `none` models the degenerate case `Σx² = 0` (no data, or
all x zero), on which the source's fit cannot produce a determined slope. -/
def zeroInterceptSlope (xs ys : List ℚ) : Option ℚ :=
  if sumSq xs = 0 then none else some (dotL xs ys / sumSq xs)

/-- `R² = 1 - ss_res/ss_tot` of a zero-intercept fit; `none` models the NaN
produced by `0/0` when `ss_tot = 0` (all y identical). -/
def rsqOf (xs ys : List ℚ) (m : ℚ) : Option ℚ :=
  if ssTot ys = 0 then none else some (1 - ssRes xs ys m / ssTot ys)

/-- Result triple of `calc_init_slope` in `G1/analysis.py`: the slope,
the R² of the accepted fit (`none` for NaN), and the number of points used. -/
structure SlopeResult where
  slope : ℚ
  r_squared : Option ℚ
  numPoints : Nat
deriving DecidableEq

/-- The acceptance test `r_sq >= threshold` of the source, on the model's
`Option`-valued R² (`none`, the NaN case, compares false as in Python). -/
def rsqGe (r : Option ℚ) (threshold : ℚ) : Bool :=
  match r with
  | some rv => threshold ≤ rv
  | none => false

/-- Loop body of `calc_init_slope` (`G1/analysis.py`, lines 55–69), iterated
over the index list `range(min_points, len(x)+1)`: at window size `i` it fits
a zero-intercept line to the first `i` points; the fit is recorded and the
window grown when `R² ≥ threshold` or `i = min_points`, otherwise the loop
breaks and the last recorded fit is returned.  A failing fit (`curve_fit`
exception) also returns the last recorded fit, since the `return` sits after
the `try`. -/
def calcInitSlopeLoop (x y : List ℚ) (threshold : ℚ) (minPts : Nat) :
    List Nat → Option SlopeResult → Option SlopeResult
  | [], acc => acc
  | i :: rest, acc =>
    match zeroInterceptSlope (x.take i) (y.take i) with
    | none => acc
    | some m =>
      let r := rsqOf (x.take i) (y.take i) m
      if rsqGe r threshold || i == minPts then
        calcInitSlopeLoop x y threshold minPts rest (some ⟨m, r, i⟩)
      else acc

/-- `calc_init_slope(x, y, min_points, threshold)` of `G1/analysis.py`.
`List.range' minPts (x.length + 1 - minPts)` is Python's
`range(min_points, len(x)+1)`. -/
def calcInitSlope (x y : List ℚ) (minPts : Nat) (threshold : ℚ) :
    Option SlopeResult :=
  calcInitSlopeLoop x y threshold minPts
    (List.range' minPts (x.length + 1 - minPts)) none

/-- Modelled from the spec: loop of `progressiveSlope` as the claim words it,
"increasing k until R² ≥ threshold or all points are exhausted", i.e. stopping
and returning the fit at the FIRST window whose R² reaches the threshold
(or the last attempted window when the threshold is never reached). -/
def progressiveSlopeSpecLoop (x y : List ℚ) (threshold : ℚ) :
    List Nat → Option SlopeResult
  | [] => none
  | i :: rest =>
    match zeroInterceptSlope (x.take i) (y.take i) with
    | none => none
    | some m =>
      let r := rsqOf (x.take i) (y.take i) m
      if rsqGe r threshold || i == x.length then
        some ⟨m, r, i⟩
      else progressiveSlopeSpecLoop x y threshold rest

/-- Entry point of the spec-worded `progressiveSlope`. -/
def progressiveSlopeSpec (x y : List ℚ) (minPts : Nat) (threshold : ℚ) :
    Option SlopeResult :=
  progressiveSlopeSpecLoop x y threshold
    (List.range' minPts (x.length + 1 - minPts))

/-! ## G3 data model

The processed observation (`proc_data` built by `calc_proc_data` in
`G3/analysis.py`) and the three families of result groups held by a
`G3Results` row (`rate_dicts`, `ea_dicts`, `ro_dicts`). -/

/-- The gas constant `R` of `main/constants.py` (magnitude in J/(mol·K)). -/
def Rgas : ℚ := 831446261815324 / 100000000000000

/-- `proc_data` of one G3 observation: id plus derived quantities, each
nullable (`calc_p_sat` / `calc_tau` / `calc_conv` return `None` on failure),
plus the two flags copied from `raw_data` (absent keys give `None`). -/
structure ProcData where
  id : Nat
  p : Option ℚ
  T_reactor : Option ℚ
  tau : Option ℚ
  conversion : Option ℚ
  is_active : Option Bool
  is_simulated : Option Bool
deriving DecidableEq

/-- One entry of `rate_dicts`: a rate group keyed by `(p, T_reactor)` with
parallel member columns and the outputs of `perform_rate_analysis`.
Plot series are lists of (x, y) points. -/
structure RateDict where
  id : Nat
  ref_ids : List Nat
  p : Option ℚ
  T_reactor : Option ℚ
  tau : List (Option ℚ)
  conversion : List (Option ℚ)
  is_active : List (Option Bool)
  is_simulated : List (Option Bool)
  rate : Option ℚ
  r_squared : Option ℚ
  error : Option String
  plotdata : Option (List (ℚ × ℚ))
  fitdata : Option (List (ℚ × ℚ))
  simuldata : Option (List (ℚ × ℚ))
  updated : Bool
deriving DecidableEq

/-- One entry of `ea_dicts`: an Ea group keyed by `p`; its members are rate
groups (`ref_ids` holds rate-group ids) with parallel `T_reactor` and `rate`
columns, plus the outputs of `perform_ea_analysis`. -/
structure EaDict where
  id : Nat
  ref_ids : List Nat
  p : Option ℚ
  T_reactor : List (Option ℚ)
  rate : List (Option ℚ)
  Ea : Option ℚ
  A_app : Option ℚ
  r_squared : Option ℚ
  error : Option String
  plotdata : Option (List (ℚ × ℚ))
  fitdata : Option (List (ℚ × ℚ))
  is_simulated : Option Bool
  updated : Bool
deriving DecidableEq

/-- One entry of `ro_dicts`: a reaction-order group keyed by `T_reactor`,
members are rate groups, with parallel `p` and `rate` columns, plus the
outputs of `perform_ro_analysis`. -/
structure RoDict where
  id : Nat
  ref_ids : List Nat
  T_reactor : Option ℚ
  p : List (Option ℚ)
  rate : List (Option ℚ)
  r_order : Option ℚ
  r_squared : Option ℚ
  error : Option String
  plotdata : Option (List (ℚ × ℚ))
  fitdata : Option (List (ℚ × ℚ))
  is_simulated : Option Bool
  updated : Bool
deriving DecidableEq

/-- `max(d["id"] for d in dicts) if dicts else 0`, on the projected id list. -/
def maxId (ids : List Nat) : Nat := ids.foldl max 0

/-! ## Group membership manager: rate family (`upd_rate_dicts`) -/

/-- Removal pass of `upd_rate_dicts` (`G3/utils.py` lines 393–410) on one
group: if the observation id is a member, its position is popped from every
list-valued field and every other non-key field is reset to `None`; the group
is marked updated. -/
def removeRate (refId : Nat) (d : RateDict) : RateDict :=
  if refId ∈ d.ref_ids then
    let i := d.ref_ids.indexOf refId
    { d with
      ref_ids := d.ref_ids.eraseIdx i
      tau := d.tau.eraseIdx i
      conversion := d.conversion.eraseIdx i
      is_active := d.is_active.eraseIdx i
      is_simulated := d.is_simulated.eraseIdx i
      rate := none, r_squared := none, error := none
      plotdata := none, fitdata := none, simuldata := none
      updated := true }
  else d

/-- Insertion into a key-matching rate group (`G3/utils.py` lines 423–439):
append the observation's id and column values, reset every non-key scalar
field to `None`, mark updated. -/
def appendRate (proc : ProcData) (d : RateDict) : RateDict :=
  { d with
    ref_ids := d.ref_ids ++ [proc.id]
    tau := d.tau ++ [proc.tau]
    conversion := d.conversion ++ [proc.conversion]
    is_active := d.is_active ++ [proc.is_active]
    is_simulated := d.is_simulated ++ [proc.is_simulated]
    rate := none, r_squared := none, error := none
    plotdata := none, fitdata := none, simuldata := none
    updated := true }

/-- Freshly created rate group (`G3/utils.py` lines 441–461): id is one more
than the maximum existing id (0 when the family is empty), single-element
columns, no fit outputs yet, marked updated. -/
def newRate (proc : ProcData) (newId : Nat) : RateDict :=
  { id := newId
    ref_ids := [proc.id]
    p := proc.p
    T_reactor := proc.T_reactor
    tau := [proc.tau]
    conversion := [proc.conversion]
    is_active := [proc.is_active]
    is_simulated := [proc.is_simulated]
    rate := none, r_squared := none, error := none
    plotdata := none, fitdata := none, simuldata := none
    updated := true }

/-- `upd_rate_dicts(proc_data, rate_dicts, deleted)` of `G3/utils.py`:
removal pass over every group, then — unless the event is a deletion or
`is_active` is exactly `False` — insertion into every group whose key
`(p, T_reactor)` equals the observation's, or creation of a fresh group
when none matches.  Note the insertion runs whenever `is_active` is not
literally `False` (`None`/missing counts as active), and that no null check
is made on the derived `tau`/`conversion` values. -/
def updRateDicts (proc : ProcData) (ds : List RateDict) (deleted : Bool) :
    List RateDict :=
  let ds1 := ds.map (removeRate proc.id)
  if deleted = false then
    if proc.is_active = some false then ds1
    else
      let matched := ds1.any fun d =>
        decide (proc.p = d.p) && decide (proc.T_reactor = d.T_reactor)
      let ds2 := ds1.map fun d =>
        if proc.p = d.p ∧ proc.T_reactor = d.T_reactor then appendRate proc d
        else d
      if matched then ds2
      else ds2 ++ [newRate proc (maxId (ds1.map (·.id)) + 1)]
  else ds1

/-! ## Regression primitives of `G3/analysis.py` -/

/-- `calc_rate(tau, conversion)` of `G3/analysis.py`: zero-intercept
least-squares rate `m = Σ(τ·X)/Στ²` with its R².  `none` models the
exception path (degenerate fit, `Στ² = 0`); an R² of `none` models the NaN
produced when all conversions are identical (`ss_tot = 0`). -/
def calcRate (tau conversion : List ℚ) : Option (ℚ × Option ℚ) :=
  if sumSq tau = 0 then none
  else
    let m := dotL tau conversion / sumSq tau
    some (m, rsqOf tau conversion m)

/-- `calc_slope(x, y)` of `G3/analysis.py` (identical in `G1/analysis.py`):
`scipy.stats.linregress` slope, intercept and R².  `none` models the
exception path (`linregress` raises on mismatched lengths, fewer than two
points, or zero x-variance); an R² of `none` models the NaN of a zero
y-variance. -/
def calcSlope (x y : List ℚ) : Option (ℚ × ℚ × Option ℚ) :=
  if x.length = y.length then
    let sxx := ssTot x
    let syy := ssTot y
    let sxy := (List.zipWith (fun a b => (a - meanL x) * (b - meanL y)) x y).sum
    if sxx = 0 then none
    else
      let slope := sxy / sxx
      let intercept := meanL y - slope * meanL x
      some (slope, intercept,
        if syy = 0 then none else some (sxy * sxy / (sxx * syy)))
  else none

/-- `np.linspace(a, b, 100)`: 100 evenly spaced points including both ends. -/
def linspace100 (a b : ℚ) : List ℚ :=
  (List.range 100).map fun i => a + (b - a) * i / 99

/-- `min` of a list (junk value 0 for the empty list, which the source never
reaches on the modelled paths). -/
def minL : List ℚ → ℚ
  | [] => 0
  | h :: t => t.foldl min h

/-- `max` of a list (junk value 0 for `[]`). -/
def maxL : List ℚ → ℚ
  | [] => 0
  | h :: t => t.foldl max h

/-- The x-grid `np.linspace(min - (max-min)*0.1, max + (max-min)*0.1, 100)`
used for every fit curve. -/
def fitGrid (xs : List ℚ) : List ℚ :=
  linspace100 (minL xs - (maxL xs - minL xs) / 10)
    (maxL xs + (maxL xs - minL xs) / 10)

/-- The provenance partition of `perform_rate_analysis` (lines 311–317):
points whose `is_simulated` flag is literally `True` go to the simulated
series, literally `False` to the experimental series, anything else (`None`)
to neither. -/
def partitionSim : List ℚ → List ℚ → List (Option Bool) →
    List (ℚ × ℚ) × List (ℚ × ℚ)
  | t :: ts, c :: cs, s :: ss =>
    let (sim, exp) := partitionSim ts cs ss
    match s with
    | some true => ((t, c) :: sim, exp)
    | some false => (sim, (t, c) :: exp)
    | none => (sim, exp)
  | _, _, _ => ([], [])

/-- Error string of `perform_rate_analysis` for one unique tau value. -/
def rateErrOne : String :=
  "Only one unique tau value. Need at least three to calculate rate. The calculated rate is only an estimate and will not be used for further calculations. Please add more data points to calculate the rate accurately."

/-- Error string of `perform_rate_analysis` for two unique tau values. -/
def rateErrTwo : String :=
  "Only two unique tau values. Need at least three to calculate rate. The calculated rate is only an estimate and will not be used for further calculations. Please add more data points to calculate the rate accurately."

/-- The tier of diagnostic written by `perform_rate_analysis` (lines
349–363): one unique real tau → first message, two → second message, three
or more → `None`; a count of zero falls through every branch and leaves the
field untouched (`prev`). -/
def rateTier (uniqueTau : Nat) (prev : Option String) : Option String :=
  match uniqueTau with
  | 0 => prev
  | 1 => some rateErrOne
  | 2 => some rateErrTwo
  | _ + 3 => none

/-- `perform_rate_analysis(rate_dict)` of `G3/analysis.py`.  The magnitude
lists are extracted (any `None` entry would raise before the `try`, leaving
the dict unchanged — modelled as the identity), the unique-tau count is taken
over the REAL observations, then a synthetic origin point `(0, 0)` is
appended to tau and conversion (flagged non-simulated) before fitting.
`rate`/`r_squared` honour Python truthiness: a value of exactly 0 is stored
as `None`; and a rate of 0 aborts (AttributeError on `rate.nominal_value`)
before the plot series and the diagnostic are written. -/
def performRateAnalysis (d : RateDict) : RateDict :=
  match seqOption d.tau, seqOption d.conversion with
  | some tau0, some conv0 =>
    let uniqueTau := tau0.dedup.length
    let tau := tau0 ++ [0]
    let conversion := conv0 ++ [0]
    let is_simulated := d.is_simulated ++ [some false]
    match calcRate tau conversion with
    | none => d
    | some (r, rsq) =>
      let d1 := { d with
        rate := if r = 0 then none else some r
        r_squared := match rsq with
          | none => none
          | some v => if v = 0 then none else some v }
      if r = 0 then d1
      else
        let tau_fit := fitGrid tau
        let conversion_fit := tau_fit.map fun x => r * x
        let (sim, exp) := partitionSim tau conversion is_simulated
        { d1 with
          plotdata := some exp
          simuldata := some sim
          fitdata := some (tau_fit.zip conversion_fit)
          error := rateTier uniqueTau d1.error }
  | _, _ => d

/-- Per-group body of `upd_rates` (`G3/utils.py` lines 481–493): an updated
group is re-analysed when it still has at least one (unique) tau entry,
otherwise its rate is reset to `None`.  The `updated` flag is left alone
(it is consumed later by `upd_ea_dicts` and cleared by `upd_ro_dicts`). -/
def updRateOne (d : RateDict) : RateDict :=
  if d.updated = true then
    if 1 ≤ d.tau.dedup.length then performRateAnalysis d
    else { d with rate := none }
  else d

/-- `upd_rates(rate_dicts)` of `G3/utils.py`. -/
def updRates (ds : List RateDict) : List RateDict := ds.map updRateOne

/-! ## Ea family: `upd_ea_dicts` / `upd_ea` / `perform_ea_analysis` -/

/-- Error string of `perform_ea_analysis` for one unique temperature. -/
def eaErrOne : String :=
  "Only one unique T_reactor value. Need at least three to calculate Ea. Activation energy cannot be calculated. Please add more data points to calculate the Ea."

/-- Error string of `perform_ea_analysis` for two unique temperatures. -/
def eaErrTwo : String :=
  "Only two unique T_reactor values. Need at least three to calculate Ea. The calculated Ea is only an estimate. Please add more data points at different T to calculate the Ea accurately."

/-- Diagnostic tier of `perform_ea_analysis` (lines 430–444). -/
def eaTier (uniqueT : Nat) (prev : Option String) : Option String :=
  match uniqueT with
  | 0 => prev
  | 1 => some eaErrOne
  | 2 => some eaErrTwo
  | _ + 3 => none

/-- `perform_ea_analysis(ea_dict)` of `G3/analysis.py`, parameterized by the
external `np.log` on magnitudes (`lnFn`).  A `None` in the `rate` or
`T_reactor` columns, or a zero temperature (float `ZeroDivisionError` on
`1/T`), raises before the `try` — modelled as the identity.  The unique
count is taken over the raw stored `T_reactor` entries.  On a successful
`linregress`, `Ea = -slope·R` and `A_app = intercept` are written
unconditionally (never `None`), then the plot series and the tier
diagnostic. -/
def performEaAnalysis (lnFn : ℚ → ℚ) (d : EaDict) : EaDict :=
  match seqOption d.rate, seqOption d.T_reactor with
  | some rs, some Ts =>
    if (0 : ℚ) ∈ Ts then d
    else
      let ln_r := rs.map lnFn
      let T_inv := Ts.map fun T => 1 / T
      let uniqueT := d.T_reactor.dedup.length
      match calcSlope T_inv ln_r with
      | none => d
      | some (slope, intercept, rsq) =>
        let T_inv_fit := fitGrid T_inv
        let ln_r_fit := T_inv_fit.map fun x => slope * x + intercept
        { d with
          Ea := some (-slope * Rgas)
          A_app := some intercept
          r_squared := rsq
          plotdata := some (T_inv.zip ln_r)
          fitdata := some (T_inv_fit.zip ln_r_fit)
          error := eaTier uniqueT d.error }
  | _, _ => d

/-- Per-group body of `upd_ea` (`G3/utils.py` lines 600–620): an updated
group is re-analysed when it has at least two distinct stored `T_reactor`
entries; otherwise `Ea` and `A_app` are reset to `None` (the `error` field is
NOT touched in that branch).  Either way the `updated` flag is cleared. -/
def updEaOne (lnFn : ℚ → ℚ) (d : EaDict) : EaDict :=
  if d.updated = true then
    let d' := if 2 ≤ d.T_reactor.dedup.length then performEaAnalysis lnFn d
              else { d with Ea := none, A_app := none }
    { d' with updated := false }
  else d

/-- `upd_ea(ea_dicts)` of `G3/utils.py`. -/
def updEa (lnFn : ℚ → ℚ) (ds : List EaDict) : List EaDict :=
  ds.map (updEaOne lnFn)

/-- Removal pass of `upd_ea_dicts` (`G3/utils.py` lines 517–532) on one Ea
group: drop the rate-group id and the same position of every list column,
reset every other non-key field (including the scalar `is_simulated`) to
`None`, mark updated. -/
def removeEa (refId : Nat) (d : EaDict) : EaDict :=
  if refId ∈ d.ref_ids then
    let i := d.ref_ids.indexOf refId
    { d with
      ref_ids := d.ref_ids.eraseIdx i
      T_reactor := d.T_reactor.eraseIdx i
      rate := d.rate.eraseIdx i
      Ea := none, A_app := none, r_squared := none, error := none
      plotdata := none, fitdata := none, is_simulated := none
      updated := true }
  else d

/-- Insertion of a rate group into a `p`-matching Ea group
(`G3/utils.py` lines 539–558). -/
def appendEa (r : RateDict) (isSim : Bool) (d : EaDict) : EaDict :=
  { d with
    ref_ids := d.ref_ids ++ [r.id]
    T_reactor := d.T_reactor ++ [r.T_reactor]
    rate := d.rate ++ [r.rate]
    Ea := none, A_app := none, r_squared := none, error := none
    plotdata := none, fitdata := none
    is_simulated := some isSim
    updated := true }

/-- Freshly created Ea group (`G3/utils.py` lines 560–578). -/
def newEa (r : RateDict) (isSim : Bool) (newId : Nat) : EaDict :=
  { id := newId
    ref_ids := [r.id]
    p := r.p
    T_reactor := [r.T_reactor]
    rate := [r.rate]
    Ea := none, A_app := none, r_squared := none, error := none
    plotdata := none, fitdata := none
    is_simulated := some isSim
    updated := true }

/-- Body of the `for r in rate_dicts` loop of `upd_ea_dicts`
(`G3/utils.py` lines 508–584): for an updated rate group, remove its id from
every Ea group, then insert it into the `p`-matching (or a fresh) Ea group —
but only when its `rate` is non-null AND its `error` is null. -/
def updEaStep (eas : List EaDict) (r : RateDict) : List EaDict :=
  if r.updated = true then
    let eas1 := eas.map (removeEa r.id)
    if r.rate ≠ none ∧ r.error = none then
      let isSim := r.is_simulated.any fun b => b == some true
      let matched := eas1.any fun d => decide (r.p = d.p)
      let eas2 := eas1.map fun d => if r.p = d.p then appendEa r isSim d else d
      if matched then eas2
      else eas2 ++ [newEa r isSim (maxId (eas1.map (·.id)) + 1)]
    else eas1
  else eas

/-- `upd_ea_dicts(rate_dicts, ea_dicts)` of `G3/utils.py`. -/
def updEaDicts (rates : List RateDict) (eas : List EaDict) : List EaDict :=
  rates.foldl updEaStep eas

/-! ## Reaction-order family: `upd_ro_dicts` / `upd_ro` /
`perform_ro_analysis` -/

/-- Error string of `perform_ro_analysis` for one unique pressure. -/
def roErrOne : String :=
  "Only one unique pressure value. Need at least three to calculate reaction order. Reaction order cannot be calculated. Please add more data points to calculate the reaction order."

/-- Error string of `perform_ro_analysis` for two unique pressures. -/
def roErrTwo : String :=
  "Only two unique pressure values. Need at least three to calculate reaction order. The calculated reaction order is only an estimate. Please add more data points at unique pressure to calculate the reaction order accurately."

/-- Diagnostic tier of `perform_ro_analysis` (lines 509–523). -/
def roTier (uniqueP : Nat) (prev : Option String) : Option String :=
  match uniqueP with
  | 0 => prev
  | 1 => some roErrOne
  | 2 => some roErrTwo
  | _ + 3 => none

/-- `perform_ro_analysis(ro_dict)` of `G3/analysis.py`, parameterized by the
external `np.log10` (`log10Fn`): log-log fit of rate against `p / 1e5`.
The unique count is over the raw stored `p` entries. -/
def performRoAnalysis (log10Fn : ℚ → ℚ) (d : RoDict) : RoDict :=
  match seqOption d.rate, seqOption d.p with
  | some rs, some ps =>
    let log_r := rs.map log10Fn
    let log_p := ps.map fun x => log10Fn (x / 100000)
    let uniqueP := d.p.dedup.length
    match calcSlope log_p log_r with
    | none => d
    | some (slope, intercept, rsq) =>
      let log_p_fit := fitGrid log_p
      let log_r_fit := log_p_fit.map fun x => slope * x + intercept
      { d with
        r_order := some slope
        r_squared := rsq
        plotdata := some (log_p.zip log_r)
        fitdata := some (log_p_fit.zip log_r_fit)
        error := roTier uniqueP d.error }
  | _, _ => d

/-- Per-group body of `upd_ro` (`G3/utils.py` lines 730–749). -/
def updRoOne (log10Fn : ℚ → ℚ) (d : RoDict) : RoDict :=
  if d.updated = true then
    let d' := if 2 ≤ d.p.dedup.length then performRoAnalysis log10Fn d
              else { d with r_order := none }
    { d' with updated := false }
  else d

/-- `upd_ro(ro_dicts)` of `G3/utils.py`. -/
def updRo (log10Fn : ℚ → ℚ) (ds : List RoDict) : List RoDict :=
  ds.map (updRoOne log10Fn)

/-- Removal pass of `upd_ro_dicts` (`G3/utils.py` lines 648–662) on one
reaction-order group. -/
def removeRo (refId : Nat) (d : RoDict) : RoDict :=
  if refId ∈ d.ref_ids then
    let i := d.ref_ids.indexOf refId
    { d with
      ref_ids := d.ref_ids.eraseIdx i
      p := d.p.eraseIdx i
      rate := d.rate.eraseIdx i
      r_order := none, r_squared := none, error := none
      plotdata := none, fitdata := none, is_simulated := none
      updated := true }
  else d

/-- Insertion of a rate group into a `T_reactor`-matching reaction-order
group (`G3/utils.py` lines 669–688). -/
def appendRo (r : RateDict) (isSim : Bool) (d : RoDict) : RoDict :=
  { d with
    ref_ids := d.ref_ids ++ [r.id]
    p := d.p ++ [r.p]
    rate := d.rate ++ [r.rate]
    r_order := none, r_squared := none, error := none
    plotdata := none, fitdata := none
    is_simulated := some isSim
    updated := true }

/-- Freshly created reaction-order group (`G3/utils.py` lines 690–708). -/
def newRo (r : RateDict) (isSim : Bool) (newId : Nat) : RoDict :=
  { id := newId
    ref_ids := [r.id]
    T_reactor := r.T_reactor
    p := [r.p]
    rate := [r.rate]
    r_order := none, r_squared := none, error := none
    plotdata := none, fitdata := none
    is_simulated := some isSim
    updated := true }

/-- Membership part of the `for r in rate_dicts` loop body of `upd_ro_dicts`
(`G3/utils.py` lines 636–714), for one updated rate group (the loop also
clears the rate group's `updated` flag, handled in `updRoDicts`). -/
def updRoStep (r : RateDict) (ros : List RoDict) : List RoDict :=
  let ros1 := ros.map (removeRo r.id)
  if r.rate ≠ none ∧ r.error = none then
    let isSim := r.is_simulated.any fun b => b == some true
    let matched := ros1.any fun d => decide (r.T_reactor = d.T_reactor)
    let ros2 := ros1.map fun d => if r.T_reactor = d.T_reactor then appendRo r isSim d else d
    if matched then ros2
    else ros2 ++ [newRo r isSim (maxId (ros1.map (·.id)) + 1)]
  else ros1

/-- `upd_ro_dicts(rate_dicts, ro_dicts)` of `G3/utils.py`: one pass over the
rate groups that clears each updated rate group's `updated` flag and folds
its membership contribution into the reaction-order groups.  Returns the
rewritten rate groups together with the reaction-order groups. -/
def updRoDicts (rates : List RateDict) (ros : List RoDict) :
    List RateDict × List RoDict :=
  rates.foldl
    (fun acc r =>
      if r.updated = true then
        (acc.1 ++ [{ r with updated := false }], updRoStep r acc.2)
      else (acc.1 ++ [r], acc.2))
    ([], ros)

/-! ## Pipeline: `upd_g3results` -/

/-- The three group families of one `G3Results` row. -/
structure G3Results where
  rate_dicts : List RateDict
  ea_dicts : List EaDict
  ro_dicts : List RoDict
deriving DecidableEq

/-- One observation-mutation event: the observation's current `proc_data`
and the deletion flag. -/
def G3Event : Type := ProcData × Bool

/-- `upd_g3results` (`G3/utils.py` lines 334–371): the fixed pass order
rate-membership → rate fits → Ea-membership → Ea fits → RO-membership
(which also clears the rate groups' updated flags) → RO fits. -/
def updG3Results (lnFn log10Fn : ℚ → ℚ) (g : G3Results) (ev : G3Event) :
    G3Results :=
  let rds := updRates (updRateDicts ev.1 g.rate_dicts ev.2)
  let eas := updEa lnFn (updEaDicts rds g.ea_dicts)
  let pr := updRoDicts rds g.ro_dicts
  let ros := updRo log10Fn pr.2
  ⟨pr.1, eas, ros⟩

/-- A student's `G3Results` row starts with empty group families
(default `list` / `JSONField(default=list)` on the model). -/
def emptyG3 : G3Results := ⟨[], [], []⟩

/-- State after a sequence of observation events, processed in order. -/
def runG3 (lnFn log10Fn : ℚ → ℚ) (evs : List G3Event) : G3Results :=
  evs.foldl (updG3Results lnFn log10Fn) emptyG3

/-! ## Helper lemmas: the fit passes never touch membership data -/

/-- The membership-relevant fields of a rate group: id, key, member list,
parallel columns and the updated flag. -/
def rateCore (d : RateDict) :
    Nat × (Option ℚ × Option ℚ) × List Nat × List (Option ℚ) ×
      List (Option ℚ) × List (Option Bool) × List (Option Bool) × Bool :=
  (d.id, (d.p, d.T_reactor), d.ref_ids, d.tau, d.conversion, d.is_active,
    d.is_simulated, d.updated)

theorem performRateAnalysis_core (d : RateDict) :
    rateCore (performRateAnalysis d) = rateCore d := by
  unfold performRateAnalysis
  rcases h1 : seqOption d.tau with _ | ts <;>
    rcases h2 : seqOption d.conversion with _ | cs <;> simp
  rcases h3 : calcRate (ts ++ [0]) (cs ++ [0]) with _ | ⟨r, rsq⟩ <;> simp
  by_cases hr : r = 0 <;> simp [hr, rateCore]

theorem updRateOne_core (d : RateDict) :
    rateCore (updRateOne d) = rateCore d := by
  unfold updRateOne
  split
  · split
    · exact performRateAnalysis_core d
    · rfl
  · rfl

/-- Membership-relevant fields of an Ea group. -/
def eaCore (d : EaDict) :
    Nat × Option ℚ × List Nat × List (Option ℚ) × List (Option ℚ) :=
  (d.id, d.p, d.ref_ids, d.T_reactor, d.rate)

theorem performEaAnalysis_core (lnFn : ℚ → ℚ) (d : EaDict) :
    eaCore (performEaAnalysis lnFn d) = eaCore d := by
  unfold performEaAnalysis
  split
  · split
    · rfl
    · dsimp only
      split
      · rfl
      · rfl
  · rfl

theorem updEaOne_core (lnFn : ℚ → ℚ) (d : EaDict) :
    eaCore (updEaOne lnFn d) = eaCore d := by
  unfold updEaOne
  split
  · show eaCore _ = _
    split
    · have h := performEaAnalysis_core lnFn d
      simp [eaCore] at h ⊢
      exact h
    · rfl
  · rfl

/-- Membership-relevant fields of a reaction-order group. -/
def roCore (d : RoDict) :
    Nat × Option ℚ × List Nat × List (Option ℚ) × List (Option ℚ) :=
  (d.id, d.T_reactor, d.ref_ids, d.p, d.rate)

theorem performRoAnalysis_core (log10Fn : ℚ → ℚ) (d : RoDict) :
    roCore (performRoAnalysis log10Fn d) = roCore d := by
  unfold performRoAnalysis
  split
  · dsimp only
    split
    · rfl
    · rfl
  · rfl

theorem updRoOne_core (log10Fn : ℚ → ℚ) (d : RoDict) :
    roCore (updRoOne log10Fn d) = roCore d := by
  unfold updRoOne
  split
  · show roCore _ = _
    split
    · have h := performRoAnalysis_core log10Fn d
      simp [roCore] at h ⊢
      exact h
    · rfl
  · rfl

/-- The rate groups returned by `updRoDicts` are exactly the input rate
groups with their `updated` flags cleared. -/
theorem updRoDicts_fst (rates : List RateDict) (ros : List RoDict) :
    (updRoDicts rates ros).1 =
      rates.map fun r => if r.updated = true then { r with updated := false } else r := by
  unfold updRoDicts
  suffices h : ∀ (acc1 : List RateDict) (ros0 : List RoDict),
      (rates.foldl
        (fun acc r =>
          if r.updated = true then
            (acc.1 ++ [{ r with updated := false }], updRoStep r acc.2)
          else (acc.1 ++ [r], acc.2))
        (acc1, ros0)).1 =
        acc1 ++ rates.map fun r =>
          if r.updated = true then { r with updated := false } else r by
    simpa using h [] ros
  induction rates with
  | nil => intro acc1 ros0; simp
  | cons r rest ih =>
    intro acc1 ros0
    by_cases hu : r.updated = true <;> simp [hu, List.foldl_cons, ih]

/-- The reaction-order groups returned by `updRoDicts` are the fold of the
membership step over the updated rate groups. -/
theorem updRoDicts_snd (rates : List RateDict) (ros : List RoDict) :
    (updRoDicts rates ros).2 =
      rates.foldl
        (fun acc r => if r.updated = true then updRoStep r acc else acc) ros := by
  unfold updRoDicts
  suffices h : ∀ (acc1 : List RateDict) (ros0 : List RoDict),
      (rates.foldl
        (fun acc r =>
          if r.updated = true then
            (acc.1 ++ [{ r with updated := false }], updRoStep r acc.2)
          else (acc.1 ++ [r], acc.2))
        (acc1, ros0)).2 =
        rates.foldl
          (fun acc r => if r.updated = true then updRoStep r acc else acc) ros0 by
    exact h [] ros
  induction rates with
  | nil => intro acc1 ros0; simp
  | cons r rest ih =>
    intro acc1 ros0
    by_cases hu : r.updated = true <;> simp [hu, List.foldl_cons, ih]

/-! ## Column alignment invariant -/

/-- Every parallel column of a rate group has the length of `ref_ids`. -/
def AlignedRate (d : RateDict) : Prop :=
  d.tau.length = d.ref_ids.length ∧ d.conversion.length = d.ref_ids.length ∧
  d.is_active.length = d.ref_ids.length ∧ d.is_simulated.length = d.ref_ids.length

/-- Every parallel column of an Ea group has the length of `ref_ids`. -/
def AlignedEa (d : EaDict) : Prop :=
  d.T_reactor.length = d.ref_ids.length ∧ d.rate.length = d.ref_ids.length

/-- Every parallel column of a reaction-order group has the length of
`ref_ids`. -/
def AlignedRo (d : RoDict) : Prop :=
  d.p.length = d.ref_ids.length ∧ d.rate.length = d.ref_ids.length

theorem removeRate_aligned {d : RateDict} (h : AlignedRate d) (refId : Nat) :
    AlignedRate (removeRate refId d) := by
  obtain ⟨h1, h2, h3, h4⟩ := h
  unfold removeRate
  by_cases hm : refId ∈ d.ref_ids
  · have hidx : d.ref_ids.indexOf refId < d.ref_ids.length :=
      List.indexOf_lt_length.mpr hm
    simp only [hm, if_true]
    refine ⟨?_, ?_, ?_, ?_⟩ <;>
      simp [List.length_eraseIdx, hidx, h1, h2, h3, h4, List.length_erase_of_mem, hm]
  · simp only [hm, if_false]
    exact ⟨h1, h2, h3, h4⟩

theorem appendRate_aligned {d : RateDict} (h : AlignedRate d) (proc : ProcData) :
    AlignedRate (appendRate proc d) := by
  obtain ⟨h1, h2, h3, h4⟩ := h
  unfold appendRate
  refine ⟨?_, ?_, ?_, ?_⟩ <;> simp [h1, h2, h3, h4]

theorem newRate_aligned (proc : ProcData) (newId : Nat) :
    AlignedRate (newRate proc newId) := by
  unfold newRate
  refine ⟨?_, ?_, ?_, ?_⟩ <;> rfl

theorem updRateDicts_aligned {ds : List RateDict}
    (h : ∀ d ∈ ds, AlignedRate d) (proc : ProcData) (deleted : Bool) :
    ∀ d ∈ updRateDicts proc ds deleted, AlignedRate d := by
  intro d hd
  unfold updRateDicts at hd
  by_cases hdel : deleted = false
  · simp only [hdel, if_true] at hd
    by_cases hact : proc.is_active = some false
    · simp only [hact, if_true] at hd
      obtain ⟨d0, hd0, rfl⟩ := List.mem_map.mp hd
      exact removeRate_aligned (h d0 hd0) proc.id
    · simp only [hact, if_false] at hd
      split at hd
      · obtain ⟨d1, hd1, rfl⟩ := List.mem_map.mp hd
        obtain ⟨d0, hd0, rfl⟩ := List.mem_map.mp hd1
        split
        · exact appendRate_aligned (removeRate_aligned (h d0 hd0) proc.id) proc
        · exact removeRate_aligned (h d0 hd0) proc.id
      · rcases List.mem_append.mp hd with hd2 | hd2
        · obtain ⟨d1, hd1, rfl⟩ := List.mem_map.mp hd2
          obtain ⟨d0, hd0, rfl⟩ := List.mem_map.mp hd1
          split
          · exact appendRate_aligned (removeRate_aligned (h d0 hd0) proc.id) proc
          · exact removeRate_aligned (h d0 hd0) proc.id
        · rw [List.mem_singleton.mp hd2]
          exact newRate_aligned proc _
  · simp only [hdel, if_false] at hd
    obtain ⟨d0, hd0, rfl⟩ := List.mem_map.mp hd
    exact removeRate_aligned (h d0 hd0) proc.id

theorem removeEa_aligned {d : EaDict} (h : AlignedEa d) (refId : Nat) :
    AlignedEa (removeEa refId d) := by
  obtain ⟨h1, h2⟩ := h
  unfold removeEa
  by_cases hm : refId ∈ d.ref_ids
  · have hidx : d.ref_ids.indexOf refId < d.ref_ids.length :=
      List.indexOf_lt_length.mpr hm
    simp only [hm, if_true]
    refine ⟨?_, ?_⟩ <;>
      simp [List.length_eraseIdx, hidx, h1, h2, List.length_erase_of_mem, hm]
  · simp only [hm, if_false]
    exact ⟨h1, h2⟩

theorem appendEa_aligned {d : EaDict} (h : AlignedEa d) (r : RateDict)
    (isSim : Bool) : AlignedEa (appendEa r isSim d) := by
  obtain ⟨h1, h2⟩ := h
  unfold appendEa
  refine ⟨?_, ?_⟩ <;> simp [h1, h2]

theorem newEa_aligned (r : RateDict) (isSim : Bool) (newId : Nat) :
    AlignedEa (newEa r isSim newId) := ⟨rfl, rfl⟩

theorem updEaStep_aligned {eas : List EaDict}
    (h : ∀ d ∈ eas, AlignedEa d) (r : RateDict) :
    ∀ d ∈ updEaStep eas r, AlignedEa d := by
  intro d hd
  unfold updEaStep at hd
  dsimp only at hd
  split at hd
  · split at hd
    · split at hd
      · obtain ⟨d1, hd1, rfl⟩ := List.mem_map.mp hd
        obtain ⟨d0, hd0, rfl⟩ := List.mem_map.mp hd1
        split
        · exact appendEa_aligned (removeEa_aligned (h d0 hd0) r.id) r _
        · exact removeEa_aligned (h d0 hd0) r.id
      · rcases List.mem_append.mp hd with hd2 | hd2
        · obtain ⟨d1, hd1, rfl⟩ := List.mem_map.mp hd2
          obtain ⟨d0, hd0, rfl⟩ := List.mem_map.mp hd1
          split
          · exact appendEa_aligned (removeEa_aligned (h d0 hd0) r.id) r _
          · exact removeEa_aligned (h d0 hd0) r.id
        · rw [List.mem_singleton.mp hd2]
          exact newEa_aligned r _ _
    · obtain ⟨d0, hd0, rfl⟩ := List.mem_map.mp hd
      exact removeEa_aligned (h d0 hd0) r.id
  · exact h d hd

theorem updEaDicts_aligned {eas : List EaDict}
    (h : ∀ d ∈ eas, AlignedEa d) (rates : List RateDict) :
    ∀ d ∈ updEaDicts rates eas, AlignedEa d := by
  unfold updEaDicts
  induction rates generalizing eas with
  | nil => exact h
  | cons r rest ih =>
    intro d hd
    exact ih (updEaStep_aligned h r) d hd

theorem removeRo_aligned {d : RoDict} (h : AlignedRo d) (refId : Nat) :
    AlignedRo (removeRo refId d) := by
  obtain ⟨h1, h2⟩ := h
  unfold removeRo
  by_cases hm : refId ∈ d.ref_ids
  · have hidx : d.ref_ids.indexOf refId < d.ref_ids.length :=
      List.indexOf_lt_length.mpr hm
    simp only [hm, if_true]
    refine ⟨?_, ?_⟩ <;>
      simp [List.length_eraseIdx, hidx, h1, h2, List.length_erase_of_mem, hm]
  · simp only [hm, if_false]
    exact ⟨h1, h2⟩

theorem appendRo_aligned {d : RoDict} (h : AlignedRo d) (r : RateDict)
    (isSim : Bool) : AlignedRo (appendRo r isSim d) := by
  obtain ⟨h1, h2⟩ := h
  unfold appendRo
  refine ⟨?_, ?_⟩ <;> simp [h1, h2]

theorem newRo_aligned (r : RateDict) (isSim : Bool) (newId : Nat) :
    AlignedRo (newRo r isSim newId) := ⟨rfl, rfl⟩

theorem updRoStep_aligned {ros : List RoDict}
    (h : ∀ d ∈ ros, AlignedRo d) (r : RateDict) :
    ∀ d ∈ updRoStep r ros, AlignedRo d := by
  intro d hd
  unfold updRoStep at hd
  dsimp only at hd
  split at hd
  · split at hd
    · obtain ⟨d1, hd1, rfl⟩ := List.mem_map.mp hd
      obtain ⟨d0, hd0, rfl⟩ := List.mem_map.mp hd1
      split
      · exact appendRo_aligned (removeRo_aligned (h d0 hd0) r.id) r _
      · exact removeRo_aligned (h d0 hd0) r.id
    · rcases List.mem_append.mp hd with hd2 | hd2
      · obtain ⟨d1, hd1, rfl⟩ := List.mem_map.mp hd2
        obtain ⟨d0, hd0, rfl⟩ := List.mem_map.mp hd1
        split
        · exact appendRo_aligned (removeRo_aligned (h d0 hd0) r.id) r _
        · exact removeRo_aligned (h d0 hd0) r.id
      · rw [List.mem_singleton.mp hd2]
        exact newRo_aligned r _ _
  · obtain ⟨d0, hd0, rfl⟩ := List.mem_map.mp hd
    exact removeRo_aligned (h d0 hd0) r.id

theorem updRoFold_aligned {ros : List RoDict}
    (h : ∀ d ∈ ros, AlignedRo d) (rates : List RateDict) :
    ∀ d ∈ (updRoDicts rates ros).2, AlignedRo d := by
  rw [updRoDicts_snd]
  induction rates generalizing ros with
  | nil => exact h
  | cons r rest ih =>
    intro d hd
    rw [List.foldl_cons] at hd
    by_cases hu : r.updated = true
    · rw [if_pos hu] at hd
      exact ih (updRoStep_aligned h r) d hd
    · rw [if_neg hu] at hd
      exact ih h d hd

/-! ## Generic bookkeeping for a family of groups

Each family updates membership with the same shape: a removal map over all
groups, then either an insertion map over the key-matching groups or the
creation of one fresh group.  The lemmas below are stated once over abstract
projections `refIds`, `key`, `idF`. -/

/-- Total number of occurrences of observation id `i` across the member
lists of all groups of a family. -/
def occG {α : Type} (refIds : α → List Nat) (i : Nat) (ds : List α) : Nat :=
  (ds.map fun d => (refIds d).count i).sum

theorem occG_nil {α : Type} (refIds : α → List Nat) (i : Nat) :
    occG refIds i [] = 0 := rfl

theorem occG_cons {α : Type} (refIds : α → List Nat) (i : Nat) (d : α)
    (ds : List α) :
    occG refIds i (d :: ds) = (refIds d).count i + occG refIds i ds := by
  simp [occG]

theorem occG_append {α : Type} (refIds : α → List Nat) (i : Nat)
    (ds1 ds2 : List α) :
    occG refIds i (ds1 ++ ds2) = occG refIds i ds1 + occG refIds i ds2 := by
  simp [occG]

theorem count_le_of_occG_le {α : Type} (refIds : α → List Nat) (i : Nat)
    {ds : List α} {d : α} (hd : d ∈ ds) (h : occG refIds i ds ≤ 1) :
    (refIds d).count i ≤ 1 := by
  induction ds with
  | nil => cases hd
  | cons a t ih =>
    rw [occG_cons] at h
    rcases List.mem_cons.mp hd with rfl | hmem
    · omega
    · exact ih hmem (by omega)

theorem occG_map_rem_self {α : Type} (refIds : α → List Nat) (pid : Nat)
    {ds : List α} (rem : α → α)
    (hrem : ∀ d, refIds (rem d) = (refIds d).erase pid)
    (h : occG refIds pid ds ≤ 1) :
    occG refIds pid (ds.map rem) = 0 := by
  induction ds with
  | nil => rfl
  | cons a t ih =>
    rw [occG_cons] at h
    rw [List.map_cons, occG_cons, hrem, List.count_erase_self,
      ih (by omega)]
    omega

theorem occG_map_rem_other {α : Type} (refIds : α → List Nat) {pid j : Nat}
    (hne : j ≠ pid) (ds : List α) (rem : α → α)
    (hrem : ∀ d, refIds (rem d) = (refIds d).erase pid) :
    occG refIds j (ds.map rem) = occG refIds j ds := by
  induction ds with
  | nil => rfl
  | cons a t ih =>
    rw [List.map_cons, occG_cons, occG_cons, hrem,
      List.count_erase_of_ne hne, ih]

theorem mem_refIds_of_occG_pos {α : Type} (refIds : α → List Nat)
    {i : Nat} {ds : List α} {d : α} (hd : d ∈ ds)
    (h : occG refIds i ds = 0) : i ∉ refIds d := by
  intro hmem
  have hc : 1 ≤ (refIds d).count i := List.count_pos_iff.mpr hmem
  induction ds with
  | nil => cases hd
  | cons a t ih =>
    rw [occG_cons] at h
    rcases List.mem_cons.mp hd with rfl | hmem2
    · omega
    · exact ih hmem2 (by omega)

theorem occG_map_ins_other {α : Type} (refIds : α → List Nat) {pid j : Nat}
    (hne : j ≠ pid) (ds : List α) (ins : α → α) (P : α → Prop)
    [DecidablePred P]
    (hins : ∀ d, refIds (ins d) = refIds d ++ [pid]) :
    occG refIds j (ds.map fun d => if P d then ins d else d) =
      occG refIds j ds := by
  induction ds with
  | nil => rfl
  | cons a t ih =>
    rw [List.map_cons, occG_cons, occG_cons, ih]
    by_cases hP : P a
    · rw [if_pos hP, hins, List.count_append]
      simp [List.count_singleton', hne]
    · rw [if_neg hP]

theorem occG_map_ins_self {α : Type} {κ : Type} [DecidableEq κ]
    (refIds : α → List Nat) (key : α → κ) (pid : Nat) {k : κ}
    {ds : List α} (ins : α → α) (P : α → Prop) [DecidablePred P]
    (hins : ∀ d, refIds (ins d) = refIds d ++ [pid])
    (hP : ∀ d, P d ↔ k = key d)
    (hnodup : (ds.map key).Nodup)
    (h0 : occG refIds pid ds = 0) :
    occG refIds pid (ds.map fun d => if P d then ins d else d) ≤ 1 := by
  induction ds with
  | nil => simp [occG]
  | cons a t ih =>
    rw [occG_cons] at h0
    rw [List.map_cons, List.nodup_cons] at hnodup
    rw [List.map_cons, occG_cons]
    by_cases hPa : P a
    · have hka : k = key a := (hP a).mp hPa
      have htail : ∀ d ∈ t, ¬P d := by
        intro d hd hPd
        apply hnodup.1
        have h1 : key a = key d := by rw [← hka]; exact (hP d).mp hPd
        rw [h1]
        exact List.mem_map_of_mem key hd
      have hmap : (t.map fun d => if P d then ins d else d) = t := by
        rw [List.map_congr_left fun d hd => if_neg (htail d hd), List.map_id']
      rw [if_pos hPa, hins, List.count_append, hmap]
      have ht0 : occG refIds pid t = 0 := by omega
      have ha0 : (refIds a).count pid = 0 := by omega
      rw [ht0, ha0]
      simp [List.count_singleton']
    · rw [if_neg hPa]
      have := ih hnodup.2 (by omega)
      omega

theorem map_proj_map {α β : Type} (f : α → α) (proj : α → β) (ds : List α)
    (h : ∀ d, proj (f d) = proj d) :
    (ds.map f).map proj = ds.map proj := by
  rw [List.map_map]
  exact List.map_congr_left fun d _ => h d

theorem map_proj_map_if {α β : Type} (ins : α → α) (P : α → Prop)
    [DecidablePred P] (proj : α → β) (ds : List α)
    (h : ∀ d, proj (ins d) = proj d) :
    ((ds.map fun d => if P d then ins d else d).map proj) = ds.map proj := by
  rw [List.map_map]
  apply List.map_congr_left
  intro d _
  by_cases hP : P d
  · simp only [Function.comp_apply, if_pos hP, h]
  · simp only [Function.comp_apply, if_neg hP]

theorem init_le_foldl_max (l : List Nat) (b : Nat) : b ≤ l.foldl max b := by
  induction l generalizing b with
  | nil => exact le_rfl
  | cons h t ih => exact le_trans (Nat.le_max_left b h) (ih (max b h))

theorem mem_le_foldl_max {l : List Nat} {a : Nat} (h : a ∈ l) (b : Nat) :
    a ≤ l.foldl max b := by
  induction l generalizing b with
  | nil => cases h
  | cons x t ih =>
    rcases List.mem_cons.mp h with rfl | hmem
    · exact le_trans (Nat.le_max_right b a) (init_le_foldl_max t (max b a))
    · exact ih hmem (max b x)

theorem le_maxId {ids : List Nat} {a : Nat} (h : a ∈ ids) : a ≤ maxId ids :=
  mem_le_foldl_max h 0

theorem mem_of_mem_getLastQ {l : List Nat} {x : Nat} (h : x ∈ l.getLast?) :
    x ∈ l := by
  obtain ⟨hne, rfl⟩ := List.mem_getLast?_eq_getLast h
  exact List.getLast_mem hne

/-- Appending a group whose id is `maxId + 1` keeps the family's id list
strictly increasing. -/
theorem chain_append_fresh {ids : List Nat}
    (h : List.Chain' (· < ·) ids) :
    List.Chain' (· < ·) (ids ++ [maxId ids + 1]) := by
  rw [List.chain'_append]
  refine ⟨h, List.chain'_singleton _, ?_⟩
  intro x hx y hy
  simp only [List.head?_cons, Option.mem_def, Option.some.injEq] at hy
  subst hy
  exact Nat.lt_succ_of_le (le_maxId (mem_of_mem_getLastQ hx))

theorem occG_singleton {α : Type} (refIds : α → List Nat) (i : Nat) (d : α) :
    occG refIds i [d] = (refIds d).count i := by
  simp [occG]

/-! ## Rate family bookkeeping -/

/-- Grouping key of a rate group. -/
def rateKey (d : RateDict) : Option ℚ × Option ℚ := (d.p, d.T_reactor)

theorem removeRate_refIds (refId : Nat) (d : RateDict) :
    (removeRate refId d).ref_ids = d.ref_ids.erase refId := by
  unfold removeRate
  by_cases hm : refId ∈ d.ref_ids
  · simp [hm]
  · simp [hm, List.erase_of_not_mem hm]

theorem removeRate_key (refId : Nat) (d : RateDict) :
    rateKey (removeRate refId d) = rateKey d := by
  unfold removeRate
  split <;> rfl

theorem removeRate_id (refId : Nat) (d : RateDict) :
    (removeRate refId d).id = d.id := by
  unfold removeRate
  split <;> rfl

theorem appendRate_refIds (proc : ProcData) (d : RateDict) :
    (appendRate proc d).ref_ids = d.ref_ids ++ [proc.id] := rfl

theorem appendRate_key (proc : ProcData) (d : RateDict) :
    rateKey (appendRate proc d) = rateKey d := rfl

theorem appendRate_id (proc : ProcData) (d : RateDict) :
    (appendRate proc d).id = d.id := rfl

theorem updRateDicts_occ (proc : ProcData) (ds : List RateDict)
    (deleted : Bool) (hnodup : (ds.map rateKey).Nodup)
    (hocc : ∀ i, occG RateDict.ref_ids i ds ≤ 1) :
    ∀ i, occG RateDict.ref_ids i (updRateDicts proc ds deleted) ≤ 1 := by
  intro j
  have hrem : ∀ d, (removeRate proc.id d).ref_ids = d.ref_ids.erase proc.id :=
    removeRate_refIds proc.id
  have h0 : occG RateDict.ref_ids proc.id (ds.map (removeRate proc.id)) = 0 :=
    occG_map_rem_self _ _ _ hrem (hocc proc.id)
  have hother : ∀ i, i ≠ proc.id →
      occG RateDict.ref_ids i (ds.map (removeRate proc.id)) =
        occG RateDict.ref_ids i ds :=
    fun i hi => occG_map_rem_other _ hi _ _ hrem
  have h1 : ∀ i, occG RateDict.ref_ids i (ds.map (removeRate proc.id)) ≤ 1 := by
    intro i
    by_cases hi : i = proc.id
    · rw [hi, h0]; omega
    · rw [hother i hi]; exact hocc i
  have hnodup1 : ((ds.map (removeRate proc.id)).map rateKey).Nodup := by
    rw [map_proj_map _ _ _ (removeRate_key proc.id)]; exact hnodup
  have hins : ∀ d, (appendRate proc d).ref_ids = d.ref_ids ++ [proc.id] :=
    appendRate_refIds proc
  unfold updRateDicts
  dsimp only
  by_cases hdel : deleted = false
  · rw [if_pos hdel]
    by_cases hact : proc.is_active = some false
    · rw [if_pos hact]; exact h1 j
    · rw [if_neg hact]
      by_cases hm : ((ds.map (removeRate proc.id)).any fun d =>
          decide (proc.p = d.p) && decide (proc.T_reactor = d.T_reactor)) = true
      · rw [if_pos hm]
        by_cases hj : j = proc.id
        · subst hj
          refine occG_map_ins_self (k := (proc.p, proc.T_reactor))
            RateDict.ref_ids rateKey proc.id (appendRate proc) _ hins ?_ hnodup1 h0
          intro d
          simp [rateKey, Prod.ext_iff]
        · rw [occG_map_ins_other RateDict.ref_ids hj _ _ _ hins]
          exact h1 j
      · rw [if_neg hm]
        have hnomatch : ∀ d ∈ ds.map (removeRate proc.id),
            ¬(proc.p = d.p ∧ proc.T_reactor = d.T_reactor) := by
          intro d hd hcontra
          apply absurd hm
          simp only [ne_eq, Decidable.not_not, List.any_eq_true]
          exact ⟨d, hd, by simp [hcontra.1, hcontra.2]⟩
        have hds2 : ((ds.map (removeRate proc.id)).map fun d =>
            if proc.p = d.p ∧ proc.T_reactor = d.T_reactor then appendRate proc d
            else d) = ds.map (removeRate proc.id) := by
          rw [List.map_congr_left fun d hd => if_neg (hnomatch d hd), List.map_id']
        rw [occG_append, hds2, occG_singleton]
        by_cases hj : j = proc.id
        · subst hj
          rw [h0]
          simp [newRate, List.count_singleton']
        · rw [hother j hj]
          have : (List.count j (newRate proc (maxId ((ds.map (removeRate proc.id)).map (fun x => x.id)) + 1)).ref_ids) = 0 := by
            simp [newRate, List.count_singleton', hj]
          rw [this]
          have := hocc j
          omega
  · rw [if_neg hdel]
    exact h1 j

theorem updRateDicts_keysNodup (proc : ProcData) (ds : List RateDict)
    (deleted : Bool) (hnodup : (ds.map rateKey).Nodup) :
    ((updRateDicts proc ds deleted).map rateKey).Nodup := by
  have hnodup1 : ((ds.map (removeRate proc.id)).map rateKey).Nodup := by
    rw [map_proj_map _ _ _ (removeRate_key proc.id)]; exact hnodup
  unfold updRateDicts
  dsimp only
  by_cases hdel : deleted = false
  · rw [if_pos hdel]
    by_cases hact : proc.is_active = some false
    · rw [if_pos hact]; exact hnodup1
    · rw [if_neg hact]
      have hkeys2 : (((ds.map (removeRate proc.id)).map fun d =>
          if proc.p = d.p ∧ proc.T_reactor = d.T_reactor then appendRate proc d
          else d).map rateKey) = (ds.map (removeRate proc.id)).map rateKey :=
        map_proj_map_if _ _ _ _ (appendRate_key proc)
      by_cases hm : ((ds.map (removeRate proc.id)).any fun d =>
          decide (proc.p = d.p) && decide (proc.T_reactor = d.T_reactor)) = true
      · rw [if_pos hm, hkeys2]
        exact hnodup1
      · rw [if_neg hm, List.map_append, hkeys2]
        rw [List.nodup_append]
        refine ⟨hnodup1, List.nodup_singleton _, ?_⟩
        intro k hk hk2
        simp only [List.map_cons, List.map_nil, List.mem_singleton] at hk2
        subst hk2
        obtain ⟨d, hd, hkd⟩ := List.mem_map.mp hk
        apply absurd hm
        simp only [ne_eq, Decidable.not_not, List.any_eq_true]
        refine ⟨d, hd, ?_⟩
        have h1 : proc.p = d.p := by
          have := congrArg Prod.fst hkd
          simpa [newRate, rateKey] using this.symm
        have h2 : proc.T_reactor = d.T_reactor := by
          have := congrArg Prod.snd hkd
          simpa [newRate, rateKey] using this.symm
        simp [h1, h2]
  · rw [if_neg hdel]
    exact hnodup1

theorem updRateDicts_ids (proc : ProcData) (ds : List RateDict)
    (deleted : Bool) :
    (updRateDicts proc ds deleted).map RateDict.id = ds.map RateDict.id ∨
      (updRateDicts proc ds deleted).map RateDict.id =
        ds.map RateDict.id ++ [maxId (ds.map RateDict.id) + 1] := by
  have hids1 : (ds.map (removeRate proc.id)).map RateDict.id =
      ds.map RateDict.id := map_proj_map _ _ _ (removeRate_id proc.id)
  unfold updRateDicts
  dsimp only
  by_cases hdel : deleted = false
  · rw [if_pos hdel]
    by_cases hact : proc.is_active = some false
    · rw [if_pos hact]; exact Or.inl hids1
    · rw [if_neg hact]
      have hids2 : (((ds.map (removeRate proc.id)).map fun d =>
          if proc.p = d.p ∧ proc.T_reactor = d.T_reactor then appendRate proc d
          else d).map RateDict.id) = ds.map RateDict.id := by
        rw [map_proj_map_if _ _ _ _ (appendRate_id proc)]; exact hids1
      by_cases hm : ((ds.map (removeRate proc.id)).any fun d =>
          decide (proc.p = d.p) && decide (proc.T_reactor = d.T_reactor)) = true
      · rw [if_pos hm]
        exact Or.inl hids2
      · rw [if_neg hm]
        refine Or.inr ?_
        rw [List.map_append, hids2, hids1]
        rfl
  · rw [if_neg hdel]
    exact Or.inl hids1

/-! ## Ea family bookkeeping -/

theorem removeEa_refIds (refId : Nat) (d : EaDict) :
    (removeEa refId d).ref_ids = d.ref_ids.erase refId := by
  unfold removeEa
  by_cases hm : refId ∈ d.ref_ids
  · simp [hm]
  · simp [hm, List.erase_of_not_mem hm]

theorem removeEa_key (refId : Nat) (d : EaDict) :
    (removeEa refId d).p = d.p := by
  unfold removeEa
  split <;> rfl

theorem removeEa_id (refId : Nat) (d : EaDict) :
    (removeEa refId d).id = d.id := by
  unfold removeEa
  split <;> rfl

theorem appendEa_refIds (r : RateDict) (isSim : Bool) (d : EaDict) :
    (appendEa r isSim d).ref_ids = d.ref_ids ++ [r.id] := rfl

theorem appendEa_key (r : RateDict) (isSim : Bool) (d : EaDict) :
    (appendEa r isSim d).p = d.p := rfl

theorem appendEa_id (r : RateDict) (isSim : Bool) (d : EaDict) :
    (appendEa r isSim d).id = d.id := rfl

/-- Bookkeeping invariant of the Ea family: no two groups share a key, each
rate-group id contributes to at most one group, and group ids are strictly
increasing. -/
def EaInv (eas : List EaDict) : Prop :=
  (eas.map EaDict.p).Nodup ∧ (∀ i, occG EaDict.ref_ids i eas ≤ 1) ∧
    List.Chain' (· < ·) (eas.map EaDict.id)

theorem updEaStep_ids (eas : List EaDict) (r : RateDict) :
    (updEaStep eas r).map EaDict.id = eas.map EaDict.id ∨
      (updEaStep eas r).map EaDict.id =
        eas.map EaDict.id ++ [maxId (eas.map EaDict.id) + 1] := by
  have hids1 : (eas.map (removeEa r.id)).map EaDict.id = eas.map EaDict.id :=
    map_proj_map _ _ _ (removeEa_id r.id)
  unfold updEaStep
  dsimp only
  by_cases hu : r.updated = true
  · rw [if_pos hu]
    by_cases hg : r.rate ≠ none ∧ r.error = none
    · rw [if_pos hg]
      have hids2 : (((eas.map (removeEa r.id)).map fun d =>
          if r.p = d.p then appendEa r (r.is_simulated.any fun b => b == some true) d
          else d).map EaDict.id) = eas.map EaDict.id := by
        rw [map_proj_map_if _ _ _ _ (appendEa_id r _)]; exact hids1
      by_cases hm : ((eas.map (removeEa r.id)).any fun d =>
          decide (r.p = d.p)) = true
      · rw [if_pos hm]
        exact Or.inl hids2
      · rw [if_neg hm]
        refine Or.inr ?_
        rw [List.map_append, hids2, hids1]
        rfl
    · rw [if_neg hg]
      exact Or.inl hids1
  · rw [if_neg hu]
    exact Or.inl rfl

theorem updEaStep_occ (eas : List EaDict) (r : RateDict)
    (hnodup : (eas.map EaDict.p).Nodup)
    (hocc : ∀ i, occG EaDict.ref_ids i eas ≤ 1) :
    ∀ i, occG EaDict.ref_ids i (updEaStep eas r) ≤ 1 := by
  intro j
  have hrem : ∀ d, (removeEa r.id d).ref_ids = d.ref_ids.erase r.id :=
    removeEa_refIds r.id
  have h0 : occG EaDict.ref_ids r.id (eas.map (removeEa r.id)) = 0 :=
    occG_map_rem_self _ _ _ hrem (hocc r.id)
  have hother : ∀ i, i ≠ r.id →
      occG EaDict.ref_ids i (eas.map (removeEa r.id)) =
        occG EaDict.ref_ids i eas :=
    fun i hi => occG_map_rem_other _ hi _ _ hrem
  have h1 : ∀ i, occG EaDict.ref_ids i (eas.map (removeEa r.id)) ≤ 1 := by
    intro i
    by_cases hi : i = r.id
    · rw [hi, h0]; omega
    · rw [hother i hi]; exact hocc i
  have hnodup1 : ((eas.map (removeEa r.id)).map EaDict.p).Nodup := by
    rw [map_proj_map _ _ _ (removeEa_key r.id)]; exact hnodup
  have hins : ∀ d, (appendEa r (r.is_simulated.any fun b => b == some true) d).ref_ids
      = d.ref_ids ++ [r.id] := appendEa_refIds r _
  unfold updEaStep
  dsimp only
  by_cases hu : r.updated = true
  · rw [if_pos hu]
    by_cases hg : r.rate ≠ none ∧ r.error = none
    · rw [if_pos hg]
      by_cases hm : ((eas.map (removeEa r.id)).any fun d =>
          decide (r.p = d.p)) = true
      · rw [if_pos hm]
        by_cases hj : j = r.id
        · subst hj
          refine occG_map_ins_self (k := r.p) EaDict.ref_ids EaDict.p r.id
            (appendEa r _) _ hins ?_ hnodup1 h0
          intro d
          exact Iff.rfl
        · rw [occG_map_ins_other EaDict.ref_ids hj _ _ _ hins]
          exact h1 j
      · rw [if_neg hm]
        have hnomatch : ∀ d ∈ eas.map (removeEa r.id), ¬(r.p = d.p) := by
          intro d hd hcontra
          apply absurd hm
          simp only [ne_eq, Decidable.not_not, List.any_eq_true]
          exact ⟨d, hd, by simp [hcontra]⟩
        have hds2 : ((eas.map (removeEa r.id)).map fun d =>
            if r.p = d.p then appendEa r (r.is_simulated.any fun b => b == some true) d
            else d) = eas.map (removeEa r.id) := by
          rw [List.map_congr_left fun d hd => if_neg (hnomatch d hd), List.map_id']
        rw [occG_append, hds2, occG_singleton]
        by_cases hj : j = r.id
        · subst hj
          rw [h0]
          simp [newEa, List.count_singleton']
        · rw [hother j hj]
          have hz : (List.count j (newEa r (r.is_simulated.any fun b => b == some true)
              (maxId ((eas.map (removeEa r.id)).map (fun x => x.id)) + 1)).ref_ids) = 0 := by
            simp [newEa, List.count_singleton', hj]
          rw [hz]
          have := hocc j
          omega
    · rw [if_neg hg]
      exact h1 j
  · rw [if_neg hu]
    exact hocc j

theorem updEaStep_keysNodup (eas : List EaDict) (r : RateDict)
    (hnodup : (eas.map EaDict.p).Nodup) :
    ((updEaStep eas r).map EaDict.p).Nodup := by
  have hnodup1 : ((eas.map (removeEa r.id)).map EaDict.p).Nodup := by
    rw [map_proj_map _ _ _ (removeEa_key r.id)]; exact hnodup
  unfold updEaStep
  dsimp only
  by_cases hu : r.updated = true
  · rw [if_pos hu]
    by_cases hg : r.rate ≠ none ∧ r.error = none
    · rw [if_pos hg]
      have hkeys2 : (((eas.map (removeEa r.id)).map fun d =>
          if r.p = d.p then appendEa r (r.is_simulated.any fun b => b == some true) d
          else d).map EaDict.p) = (eas.map (removeEa r.id)).map EaDict.p :=
        map_proj_map_if _ _ _ _ (appendEa_key r _)
      by_cases hm : ((eas.map (removeEa r.id)).any fun d =>
          decide (r.p = d.p)) = true
      · rw [if_pos hm, hkeys2]
        exact hnodup1
      · rw [if_neg hm, List.map_append, hkeys2]
        rw [List.nodup_append]
        refine ⟨hnodup1, List.nodup_singleton _, ?_⟩
        intro k hk hk2
        simp only [List.map_cons, List.map_nil, List.mem_singleton] at hk2
        subst hk2
        obtain ⟨d, hd, hkd⟩ := List.mem_map.mp hk
        apply absurd hm
        simp only [ne_eq, Decidable.not_not, List.any_eq_true]
        refine ⟨d, hd, ?_⟩
        simp [newEa] at hkd
        simp [hkd]
    · rw [if_neg hg]
      exact hnodup1
  · rw [if_neg hu]
    exact hnodup

theorem updEaStep_inv {eas : List EaDict} (r : RateDict) (h : EaInv eas) :
    EaInv (updEaStep eas r) := by
  obtain ⟨hk, ho, hc⟩ := h
  refine ⟨updEaStep_keysNodup eas r hk, updEaStep_occ eas r hk ho, ?_⟩
  rcases updEaStep_ids eas r with hid | hid
  · rw [hid]; exact hc
  · rw [hid]; exact chain_append_fresh hc

theorem updEaDicts_inv {eas : List EaDict} (rates : List RateDict)
    (h : EaInv eas) : EaInv (updEaDicts rates eas) := by
  unfold updEaDicts
  induction rates generalizing eas with
  | nil => exact h
  | cons r rest ih => exact ih (updEaStep_inv r h)

/-! ## Reaction-order family bookkeeping -/

theorem removeRo_refIds (refId : Nat) (d : RoDict) :
    (removeRo refId d).ref_ids = d.ref_ids.erase refId := by
  unfold removeRo
  by_cases hm : refId ∈ d.ref_ids
  · simp [hm]
  · simp [hm, List.erase_of_not_mem hm]

theorem removeRo_key (refId : Nat) (d : RoDict) :
    (removeRo refId d).T_reactor = d.T_reactor := by
  unfold removeRo
  split <;> rfl

theorem removeRo_id (refId : Nat) (d : RoDict) :
    (removeRo refId d).id = d.id := by
  unfold removeRo
  split <;> rfl

theorem appendRo_refIds (r : RateDict) (isSim : Bool) (d : RoDict) :
    (appendRo r isSim d).ref_ids = d.ref_ids ++ [r.id] := rfl

theorem appendRo_key (r : RateDict) (isSim : Bool) (d : RoDict) :
    (appendRo r isSim d).T_reactor = d.T_reactor := rfl

theorem appendRo_id (r : RateDict) (isSim : Bool) (d : RoDict) :
    (appendRo r isSim d).id = d.id := rfl

/-- Bookkeeping invariant of the reaction-order family. -/
def RoInv (ros : List RoDict) : Prop :=
  (ros.map RoDict.T_reactor).Nodup ∧ (∀ i, occG RoDict.ref_ids i ros ≤ 1) ∧
    List.Chain' (· < ·) (ros.map RoDict.id)

theorem updRoStep_ids (r : RateDict) (ros : List RoDict) :
    (updRoStep r ros).map RoDict.id = ros.map RoDict.id ∨
      (updRoStep r ros).map RoDict.id =
        ros.map RoDict.id ++ [maxId (ros.map RoDict.id) + 1] := by
  have hids1 : (ros.map (removeRo r.id)).map RoDict.id = ros.map RoDict.id :=
    map_proj_map _ _ _ (removeRo_id r.id)
  unfold updRoStep
  dsimp only
  by_cases hg : r.rate ≠ none ∧ r.error = none
  · rw [if_pos hg]
    have hids2 : (((ros.map (removeRo r.id)).map fun d =>
        if r.T_reactor = d.T_reactor then
          appendRo r (r.is_simulated.any fun b => b == some true) d
        else d).map RoDict.id) = ros.map RoDict.id := by
      rw [map_proj_map_if _ _ _ _ (appendRo_id r _)]; exact hids1
    by_cases hm : ((ros.map (removeRo r.id)).any fun d =>
        decide (r.T_reactor = d.T_reactor)) = true
    · rw [if_pos hm]
      exact Or.inl hids2
    · rw [if_neg hm]
      refine Or.inr ?_
      rw [List.map_append, hids2, hids1]
      rfl
  · rw [if_neg hg]
    exact Or.inl hids1

theorem updRoStep_occ (r : RateDict) (ros : List RoDict)
    (hnodup : (ros.map RoDict.T_reactor).Nodup)
    (hocc : ∀ i, occG RoDict.ref_ids i ros ≤ 1) :
    ∀ i, occG RoDict.ref_ids i (updRoStep r ros) ≤ 1 := by
  intro j
  have hrem : ∀ d, (removeRo r.id d).ref_ids = d.ref_ids.erase r.id :=
    removeRo_refIds r.id
  have h0 : occG RoDict.ref_ids r.id (ros.map (removeRo r.id)) = 0 :=
    occG_map_rem_self _ _ _ hrem (hocc r.id)
  have hother : ∀ i, i ≠ r.id →
      occG RoDict.ref_ids i (ros.map (removeRo r.id)) =
        occG RoDict.ref_ids i ros :=
    fun i hi => occG_map_rem_other _ hi _ _ hrem
  have h1 : ∀ i, occG RoDict.ref_ids i (ros.map (removeRo r.id)) ≤ 1 := by
    intro i
    by_cases hi : i = r.id
    · rw [hi, h0]; omega
    · rw [hother i hi]; exact hocc i
  have hnodup1 : ((ros.map (removeRo r.id)).map RoDict.T_reactor).Nodup := by
    rw [map_proj_map _ _ _ (removeRo_key r.id)]; exact hnodup
  have hins : ∀ d, (appendRo r (r.is_simulated.any fun b => b == some true) d).ref_ids
      = d.ref_ids ++ [r.id] := appendRo_refIds r _
  unfold updRoStep
  dsimp only
  by_cases hg : r.rate ≠ none ∧ r.error = none
  · rw [if_pos hg]
    by_cases hm : ((ros.map (removeRo r.id)).any fun d =>
        decide (r.T_reactor = d.T_reactor)) = true
    · rw [if_pos hm]
      by_cases hj : j = r.id
      · subst hj
        refine occG_map_ins_self (k := r.T_reactor) RoDict.ref_ids RoDict.T_reactor
          r.id (appendRo r _) _ hins ?_ hnodup1 h0
        intro d
        exact Iff.rfl
      · rw [occG_map_ins_other RoDict.ref_ids hj _ _ _ hins]
        exact h1 j
    · rw [if_neg hm]
      have hnomatch : ∀ d ∈ ros.map (removeRo r.id), ¬(r.T_reactor = d.T_reactor) := by
        intro d hd hcontra
        apply absurd hm
        simp only [ne_eq, Decidable.not_not, List.any_eq_true]
        exact ⟨d, hd, by simp [hcontra]⟩
      have hds2 : ((ros.map (removeRo r.id)).map fun d =>
          if r.T_reactor = d.T_reactor then
            appendRo r (r.is_simulated.any fun b => b == some true) d
          else d) = ros.map (removeRo r.id) := by
        rw [List.map_congr_left fun d hd => if_neg (hnomatch d hd), List.map_id']
      rw [occG_append, hds2, occG_singleton]
      by_cases hj : j = r.id
      · subst hj
        rw [h0]
        simp [newRo, List.count_singleton']
      · rw [hother j hj]
        have hz : (List.count j (newRo r (r.is_simulated.any fun b => b == some true)
            (maxId ((ros.map (removeRo r.id)).map (fun x => x.id)) + 1)).ref_ids) = 0 := by
          simp [newRo, List.count_singleton', hj]
        rw [hz]
        have := hocc j
        omega
  · rw [if_neg hg]
    exact h1 j

theorem updRoStep_keysNodup (r : RateDict) (ros : List RoDict)
    (hnodup : (ros.map RoDict.T_reactor).Nodup) :
    ((updRoStep r ros).map RoDict.T_reactor).Nodup := by
  have hnodup1 : ((ros.map (removeRo r.id)).map RoDict.T_reactor).Nodup := by
    rw [map_proj_map _ _ _ (removeRo_key r.id)]; exact hnodup
  unfold updRoStep
  dsimp only
  by_cases hg : r.rate ≠ none ∧ r.error = none
  · rw [if_pos hg]
    have hkeys2 : (((ros.map (removeRo r.id)).map fun d =>
        if r.T_reactor = d.T_reactor then
          appendRo r (r.is_simulated.any fun b => b == some true) d
        else d).map RoDict.T_reactor) = (ros.map (removeRo r.id)).map RoDict.T_reactor :=
      map_proj_map_if _ _ _ _ (appendRo_key r _)
    by_cases hm : ((ros.map (removeRo r.id)).any fun d =>
        decide (r.T_reactor = d.T_reactor)) = true
    · rw [if_pos hm, hkeys2]
      exact hnodup1
    · rw [if_neg hm, List.map_append, hkeys2]
      rw [List.nodup_append]
      refine ⟨hnodup1, List.nodup_singleton _, ?_⟩
      intro k hk hk2
      simp only [List.map_cons, List.map_nil, List.mem_singleton] at hk2
      subst hk2
      obtain ⟨d, hd, hkd⟩ := List.mem_map.mp hk
      apply absurd hm
      simp only [ne_eq, Decidable.not_not, List.any_eq_true]
      refine ⟨d, hd, ?_⟩
      simp [newRo] at hkd
      simp [hkd]
  · rw [if_neg hg]
    exact hnodup1

theorem updRoStep_inv {ros : List RoDict} (r : RateDict) (h : RoInv ros) :
    RoInv (updRoStep r ros) := by
  obtain ⟨hk, ho, hc⟩ := h
  refine ⟨updRoStep_keysNodup r ros hk, updRoStep_occ r ros hk ho, ?_⟩
  rcases updRoStep_ids r ros with hid | hid
  · rw [hid]; exact hc
  · rw [hid]; exact chain_append_fresh hc

theorem updRoDicts_inv {ros : List RoDict} (rates : List RateDict)
    (h : RoInv ros) : RoInv (updRoDicts rates ros).2 := by
  rw [updRoDicts_snd]
  induction rates generalizing ros with
  | nil => exact h
  | cons r rest ih =>
    rw [List.foldl_cons]
    by_cases hu : r.updated = true
    · rw [if_pos hu]
      exact ih (updRoStep_inv r h)
    · rw [if_neg hu]
      exact ih h

/-! ## Pipeline invariant -/

theorem occG_map_eq {α : Type} (refIds : α → List Nat) (f : α → α)
    (h : ∀ d, refIds (f d) = refIds d) (i : Nat) (ds : List α) :
    occG refIds i (ds.map f) = occG refIds i ds := by
  induction ds with
  | nil => rfl
  | cons a t ih => rw [List.map_cons, occG_cons, occG_cons, h, ih]

theorem updRateOne_refIds (d : RateDict) :
    (updRateOne d).ref_ids = d.ref_ids :=
  congrArg (fun t => t.2.2.1) (updRateOne_core d)

theorem updRateOne_key (d : RateDict) : rateKey (updRateOne d) = rateKey d :=
  congrArg (fun t => t.2.1) (updRateOne_core d)

theorem updRateOne_id (d : RateDict) : (updRateOne d).id = d.id :=
  congrArg (fun t => t.1) (updRateOne_core d)

theorem updRateOne_tau (d : RateDict) : (updRateOne d).tau = d.tau :=
  congrArg (fun t => t.2.2.2.1) (updRateOne_core d)

theorem updRateOne_conversion (d : RateDict) :
    (updRateOne d).conversion = d.conversion :=
  congrArg (fun t => t.2.2.2.2.1) (updRateOne_core d)

theorem updRateOne_isActive (d : RateDict) :
    (updRateOne d).is_active = d.is_active :=
  congrArg (fun t => t.2.2.2.2.2.1) (updRateOne_core d)

theorem updRateOne_isSimulated (d : RateDict) :
    (updRateOne d).is_simulated = d.is_simulated :=
  congrArg (fun t => t.2.2.2.2.2.2.1) (updRateOne_core d)

theorem updRateOne_updated (d : RateDict) :
    (updRateOne d).updated = d.updated :=
  congrArg (fun t => t.2.2.2.2.2.2.2) (updRateOne_core d)

theorem updRateOne_aligned {d : RateDict} (h : AlignedRate d) :
    AlignedRate (updRateOne d) := by
  unfold AlignedRate at h ⊢
  rw [updRateOne_refIds, updRateOne_tau, updRateOne_conversion,
    updRateOne_isActive, updRateOne_isSimulated]
  exact h

theorem updEaOne_refIds (lnFn : ℚ → ℚ) (d : EaDict) :
    (updEaOne lnFn d).ref_ids = d.ref_ids :=
  congrArg (fun t => t.2.2.1) (updEaOne_core lnFn d)

theorem updEaOne_key (lnFn : ℚ → ℚ) (d : EaDict) :
    (updEaOne lnFn d).p = d.p :=
  congrArg (fun t => t.2.1) (updEaOne_core lnFn d)

theorem updEaOne_id (lnFn : ℚ → ℚ) (d : EaDict) :
    (updEaOne lnFn d).id = d.id :=
  congrArg (fun t => t.1) (updEaOne_core lnFn d)

theorem updEaOne_T (lnFn : ℚ → ℚ) (d : EaDict) :
    (updEaOne lnFn d).T_reactor = d.T_reactor :=
  congrArg (fun t => t.2.2.2.1) (updEaOne_core lnFn d)

theorem updEaOne_rateCol (lnFn : ℚ → ℚ) (d : EaDict) :
    (updEaOne lnFn d).rate = d.rate :=
  congrArg (fun t => t.2.2.2.2) (updEaOne_core lnFn d)

theorem updEaOne_aligned (lnFn : ℚ → ℚ) {d : EaDict} (h : AlignedEa d) :
    AlignedEa (updEaOne lnFn d) := by
  unfold AlignedEa at h ⊢
  rw [updEaOne_refIds, updEaOne_T, updEaOne_rateCol]
  exact h

theorem updRoOne_refIds (log10Fn : ℚ → ℚ) (d : RoDict) :
    (updRoOne log10Fn d).ref_ids = d.ref_ids :=
  congrArg (fun t => t.2.2.1) (updRoOne_core log10Fn d)

theorem updRoOne_key (log10Fn : ℚ → ℚ) (d : RoDict) :
    (updRoOne log10Fn d).T_reactor = d.T_reactor :=
  congrArg (fun t => t.2.1) (updRoOne_core log10Fn d)

theorem updRoOne_id (log10Fn : ℚ → ℚ) (d : RoDict) :
    (updRoOne log10Fn d).id = d.id :=
  congrArg (fun t => t.1) (updRoOne_core log10Fn d)

theorem updRoOne_pCol (log10Fn : ℚ → ℚ) (d : RoDict) :
    (updRoOne log10Fn d).p = d.p :=
  congrArg (fun t => t.2.2.2.1) (updRoOne_core log10Fn d)

theorem updRoOne_rateCol (log10Fn : ℚ → ℚ) (d : RoDict) :
    (updRoOne log10Fn d).rate = d.rate :=
  congrArg (fun t => t.2.2.2.2) (updRoOne_core log10Fn d)

theorem updRoOne_aligned (log10Fn : ℚ → ℚ) {d : RoDict} (h : AlignedRo d) :
    AlignedRo (updRoOne log10Fn d) := by
  unfold AlignedRo at h ⊢
  rw [updRoOne_refIds, updRoOne_pCol, updRoOne_rateCol]
  exact h

/-- The joint structural invariant of the three group families: column
alignment, pairwise-distinct grouping keys, at-most-one membership per
referenced id, and strictly increasing group ids. -/
structure G3Inv (g : G3Results) : Prop where
  alignedRate : ∀ d ∈ g.rate_dicts, AlignedRate d
  alignedEa : ∀ d ∈ g.ea_dicts, AlignedEa d
  alignedRo : ∀ d ∈ g.ro_dicts, AlignedRo d
  rateKeysNodup : (g.rate_dicts.map rateKey).Nodup
  eaKeysNodup : (g.ea_dicts.map EaDict.p).Nodup
  roKeysNodup : (g.ro_dicts.map RoDict.T_reactor).Nodup
  rateOccLe : ∀ i, occG RateDict.ref_ids i g.rate_dicts ≤ 1
  eaOccLe : ∀ i, occG EaDict.ref_ids i g.ea_dicts ≤ 1
  roOccLe : ∀ i, occG RoDict.ref_ids i g.ro_dicts ≤ 1
  rateIdsChain : List.Chain' (· < ·) (g.rate_dicts.map RateDict.id)
  eaIdsChain : List.Chain' (· < ·) (g.ea_dicts.map EaDict.id)
  roIdsChain : List.Chain' (· < ·) (g.ro_dicts.map RoDict.id)

/-- The reset function applied to rate groups by `upd_ro_dicts`. -/
theorem resetUpdated_core (r : RateDict) :
    ((if r.updated = true then { r with updated := false } else r) : RateDict).ref_ids
        = r.ref_ids ∧
      rateKey (if r.updated = true then { r with updated := false } else r) = rateKey r ∧
      ((if r.updated = true then { r with updated := false } else r) : RateDict).id = r.id ∧
      ((if r.updated = true then { r with updated := false } else r) : RateDict).tau = r.tau ∧
      ((if r.updated = true then { r with updated := false } else r) : RateDict).conversion
        = r.conversion ∧
      ((if r.updated = true then { r with updated := false } else r) : RateDict).is_active
        = r.is_active ∧
      ((if r.updated = true then { r with updated := false } else r) : RateDict).is_simulated
        = r.is_simulated := by
  split <;> exact ⟨rfl, rfl, rfl, rfl, rfl, rfl, rfl⟩

/-- One pipeline event preserves the joint structural invariant. -/
theorem updG3Results_inv (lnFn log10Fn : ℚ → ℚ) (g : G3Results)
    (ev : G3Event) (h : G3Inv g) :
    G3Inv (updG3Results lnFn log10Fn g ev) := by
  obtain ⟨har, hae, haro, hrk, hek, hok, hro, heo, hoo, hri, hei, hoi⟩ := h
  -- rate family after `upd_rate_dicts`
  have har1 : ∀ d ∈ updRateDicts ev.1 g.rate_dicts ev.2, AlignedRate d :=
    updRateDicts_aligned har ev.1 ev.2
  have hrk1 := updRateDicts_keysNodup ev.1 g.rate_dicts ev.2 hrk
  have hro1 := updRateDicts_occ ev.1 g.rate_dicts ev.2 hrk hro
  have hri1 : List.Chain' (· < ·)
      ((updRateDicts ev.1 g.rate_dicts ev.2).map RateDict.id) := by
    rcases updRateDicts_ids ev.1 g.rate_dicts ev.2 with hid | hid
    · rw [hid]; exact hri
    · rw [hid]; exact chain_append_fresh hri
  -- rate family after `upd_rates`
  have har2 : ∀ d ∈ updRates (updRateDicts ev.1 g.rate_dicts ev.2),
      AlignedRate d := by
    intro d hd
    obtain ⟨d0, hd0, rfl⟩ := List.mem_map.mp hd
    exact updRateOne_aligned (har1 d0 hd0)
  have hrk2 : ((updRates (updRateDicts ev.1 g.rate_dicts ev.2)).map rateKey).Nodup := by
    unfold updRates
    rw [map_proj_map _ _ _ updRateOne_key]
    exact hrk1
  have hro2 : ∀ i, occG RateDict.ref_ids i
      (updRates (updRateDicts ev.1 g.rate_dicts ev.2)) ≤ 1 := by
    intro i
    unfold updRates
    rw [occG_map_eq _ _ updRateOne_refIds]
    exact hro1 i
  have hri2 : List.Chain' (· < ·)
      ((updRates (updRateDicts ev.1 g.rate_dicts ev.2)).map RateDict.id) := by
    unfold updRates
    rw [map_proj_map _ _ _ updRateOne_id]
    exact hri1
  -- Ea family
  have hea1 : ∀ d ∈ updEaDicts (updRates (updRateDicts ev.1 g.rate_dicts ev.2))
      g.ea_dicts, AlignedEa d := updEaDicts_aligned hae _
  have heaInv : EaInv (updEaDicts (updRates (updRateDicts ev.1 g.rate_dicts ev.2))
      g.ea_dicts) := updEaDicts_inv _ ⟨hek, heo, hei⟩
  have hea2 : ∀ d ∈ updEa lnFn (updEaDicts
      (updRates (updRateDicts ev.1 g.rate_dicts ev.2)) g.ea_dicts), AlignedEa d := by
    intro d hd
    obtain ⟨d0, hd0, rfl⟩ := List.mem_map.mp hd
    exact updEaOne_aligned lnFn (hea1 d0 hd0)
  have hek2 : ((updEa lnFn (updEaDicts
      (updRates (updRateDicts ev.1 g.rate_dicts ev.2)) g.ea_dicts)).map EaDict.p).Nodup := by
    unfold updEa
    rw [map_proj_map _ _ _ (updEaOne_key lnFn)]
    exact heaInv.1
  have heo2 : ∀ i, occG EaDict.ref_ids i (updEa lnFn (updEaDicts
      (updRates (updRateDicts ev.1 g.rate_dicts ev.2)) g.ea_dicts)) ≤ 1 := by
    intro i
    unfold updEa
    rw [occG_map_eq _ _ (updEaOne_refIds lnFn)]
    exact heaInv.2.1 i
  have hei2 : List.Chain' (· < ·) ((updEa lnFn (updEaDicts
      (updRates (updRateDicts ev.1 g.rate_dicts ev.2)) g.ea_dicts)).map EaDict.id) := by
    unfold updEa
    rw [map_proj_map _ _ _ (updEaOne_id lnFn)]
    exact heaInv.2.2
  -- reaction-order family
  have horo1 : ∀ d ∈ (updRoDicts (updRates (updRateDicts ev.1 g.rate_dicts ev.2))
      g.ro_dicts).2, AlignedRo d := updRoFold_aligned haro _
  have hroInv : RoInv (updRoDicts (updRates (updRateDicts ev.1 g.rate_dicts ev.2))
      g.ro_dicts).2 := updRoDicts_inv _ ⟨hok, hoo, hoi⟩
  have horo2 : ∀ d ∈ updRo log10Fn (updRoDicts
      (updRates (updRateDicts ev.1 g.rate_dicts ev.2)) g.ro_dicts).2, AlignedRo d := by
    intro d hd
    obtain ⟨d0, hd0, rfl⟩ := List.mem_map.mp hd
    exact updRoOne_aligned log10Fn (horo1 d0 hd0)
  have hok2 : ((updRo log10Fn (updRoDicts (updRates (updRateDicts ev.1 g.rate_dicts ev.2))
      g.ro_dicts).2).map RoDict.T_reactor).Nodup := by
    unfold updRo
    rw [map_proj_map _ _ _ (updRoOne_key log10Fn)]
    exact hroInv.1
  have hoo2 : ∀ i, occG RoDict.ref_ids i (updRo log10Fn (updRoDicts
      (updRates (updRateDicts ev.1 g.rate_dicts ev.2)) g.ro_dicts).2) ≤ 1 := by
    intro i
    unfold updRo
    rw [occG_map_eq _ _ (updRoOne_refIds log10Fn)]
    exact hroInv.2.1 i
  have hoi2 : List.Chain' (· < ·) ((updRo log10Fn (updRoDicts
      (updRates (updRateDicts ev.1 g.rate_dicts ev.2)) g.ro_dicts).2).map RoDict.id) := by
    unfold updRo
    rw [map_proj_map _ _ _ (updRoOne_id log10Fn)]
    exact hroInv.2.2
  -- rate family after `upd_ro_dicts` clears the updated flags
  have hfst := updRoDicts_fst (updRates (updRateDicts ev.1 g.rate_dicts ev.2)) g.ro_dicts
  refine ⟨?_, hea2, horo2, ?_, hek2, hok2, ?_, heo2, hoo2, ?_, hei2, hoi2⟩
  · intro d hd
    rw [show (updG3Results lnFn log10Fn g ev).rate_dicts =
        (updRoDicts (updRates (updRateDicts ev.1 g.rate_dicts ev.2)) g.ro_dicts).1
      from rfl, hfst] at hd
    obtain ⟨d0, hd0, rfl⟩ := List.mem_map.mp hd
    obtain ⟨e1, _, _, e4, e5, e6, e7⟩ := resetUpdated_core d0
    unfold AlignedRate
    rw [e1, e4, e5, e6, e7]
    exact har2 d0 hd0
  · rw [show (updG3Results lnFn log10Fn g ev).rate_dicts =
        (updRoDicts (updRates (updRateDicts ev.1 g.rate_dicts ev.2)) g.ro_dicts).1
      from rfl, hfst, map_proj_map _ _ _ fun r => (resetUpdated_core r).2.1]
    exact hrk2
  · intro i
    rw [show (updG3Results lnFn log10Fn g ev).rate_dicts =
        (updRoDicts (updRates (updRateDicts ev.1 g.rate_dicts ev.2)) g.ro_dicts).1
      from rfl, hfst, occG_map_eq _ _ fun r => (resetUpdated_core r).1]
    exact hro2 i
  · rw [show (updG3Results lnFn log10Fn g ev).rate_dicts =
        (updRoDicts (updRates (updRateDicts ev.1 g.rate_dicts ev.2)) g.ro_dicts).1
      from rfl, hfst, map_proj_map _ _ _ fun r => (resetUpdated_core r).2.2.1]
    exact hri2

/-- The empty state satisfies the invariant. -/
theorem emptyG3_inv : G3Inv emptyG3 := by
  refine ⟨?_, ?_, ?_, ?_, ?_, ?_, ?_, ?_, ?_, ?_, ?_, ?_⟩ <;>
    first
      | intro d hd; cases hd
      | intro i; simp [occG, emptyG3]
      | simp [emptyG3]

/-- The invariant holds after any sequence of observation events. -/
theorem runG3_inv (lnFn log10Fn : ℚ → ℚ) (evs : List G3Event) :
    G3Inv (runG3 lnFn log10Fn evs) := by
  unfold runG3
  suffices h : ∀ g : G3Results, G3Inv g →
      G3Inv (evs.foldl (updG3Results lnFn log10Fn) g) by
    exact h emptyG3 emptyG3_inv
  induction evs with
  | nil => exact fun g hg => hg
  | cons e rest ih =>
    intro g hg
    exact ih _ (updG3Results_inv lnFn log10Fn g e hg)

/-! ## Claim theorems -/

theorem countP_mem_le_occG {α : Type} (refIds : α → List Nat) (i : Nat)
    (ds : List α) :
    (ds.countP fun d => decide (i ∈ refIds d)) ≤ occG refIds i ds := by
  induction ds with
  | nil => exact Nat.le_refl 0
  | cons a t ih =>
    rw [occG_cons, List.countP_cons]
    by_cases hm : i ∈ refIds a
    · have : 1 ≤ (refIds a).count i := List.count_pos_iff.mpr hm
      simp only [hm, decide_eq_true_eq, if_pos]
      omega
    · simp only [hm, decide_eq_true_eq, if_neg, not_false_iff]
      omega

/-- C2: after any sequence of observation create/update/delete events, in
every group of every family the member-id list `ref_ids` and every parallel
list-valued column have equal length: removal pops the same index from every
list and insertion appends exactly one element to every list. -/
theorem column_alignment_invariant (lnFn log10Fn : ℚ → ℚ)
    (evs : List G3Event) :
    (∀ d ∈ (runG3 lnFn log10Fn evs).rate_dicts, AlignedRate d) ∧
    (∀ d ∈ (runG3 lnFn log10Fn evs).ea_dicts, AlignedEa d) ∧
    (∀ d ∈ (runG3 lnFn log10Fn evs).ro_dicts, AlignedRo d) :=
  ⟨(runG3_inv lnFn log10Fn evs).alignedRate,
   (runG3_inv lnFn log10Fn evs).alignedEa,
   (runG3_inv lnFn log10Fn evs).alignedRo⟩

/-- C5: after any sequence of upsert/delete events, an observation id appears
in the `ref_ids` of at most one group per family (the removal pass scans all
groups and deletes the id everywhere before the insertion pass adds it to at
most one key-matching group). -/
theorem membership_exclusivity (lnFn log10Fn : ℚ → ℚ)
    (evs : List G3Event) (i : Nat) :
    ((runG3 lnFn log10Fn evs).rate_dicts.countP
        fun d => decide (i ∈ d.ref_ids)) ≤ 1 ∧
    ((runG3 lnFn log10Fn evs).ea_dicts.countP
        fun d => decide (i ∈ d.ref_ids)) ≤ 1 ∧
    ((runG3 lnFn log10Fn evs).ro_dicts.countP
        fun d => decide (i ∈ d.ref_ids)) ≤ 1 :=
  ⟨le_trans (countP_mem_le_occG RateDict.ref_ids i _)
      ((runG3_inv lnFn log10Fn evs).rateOccLe i),
   le_trans (countP_mem_le_occG EaDict.ref_ids i _)
      ((runG3_inv lnFn log10Fn evs).eaOccLe i),
   le_trans (countP_mem_le_occG RoDict.ref_ids i _)
      ((runG3_inv lnFn log10Fn evs).roOccLe i)⟩

/-- C6: whenever the membership manager creates a new group, the new group's
id is 1 plus the maximum existing id of the family (0 when the family is
empty) — shown for a rate-family upsert and for the propagation of a rate
group into the Ea family — and, since groups are never removed, after any
event sequence the id lists of all three families are strictly increasing,
so an id is never reused after a group becomes empty. -/
theorem monotonic_group_ids :
    (∀ (proc : ProcData) (ds : List RateDict) (deleted : Bool),
      (updRateDicts proc ds deleted).map RateDict.id = ds.map RateDict.id ∨
        (updRateDicts proc ds deleted).map RateDict.id =
          ds.map RateDict.id ++ [maxId (ds.map RateDict.id) + 1]) ∧
    (∀ (eas : List EaDict) (r : RateDict),
      (updEaStep eas r).map EaDict.id = eas.map EaDict.id ∨
        (updEaStep eas r).map EaDict.id =
          eas.map EaDict.id ++ [maxId (eas.map EaDict.id) + 1]) ∧
    (∀ (lnFn log10Fn : ℚ → ℚ) (evs : List G3Event),
      List.Chain' (· < ·) ((runG3 lnFn log10Fn evs).rate_dicts.map RateDict.id) ∧
      List.Chain' (· < ·) ((runG3 lnFn log10Fn evs).ea_dicts.map EaDict.id) ∧
      List.Chain' (· < ·) ((runG3 lnFn log10Fn evs).ro_dicts.map RoDict.id)) :=
  ⟨updRateDicts_ids, updEaStep_ids,
   fun lnFn log10Fn evs =>
     ⟨(runG3_inv lnFn log10Fn evs).rateIdsChain,
      (runG3_inv lnFn log10Fn evs).eaIdsChain,
      (runG3_inv lnFn log10Fn evs).roIdsChain⟩⟩

theorem updRateDicts_inserts (proc : ProcData) (ds : List RateDict)
    (hact : proc.is_active ≠ some false) :
    ∃ d ∈ updRateDicts proc ds false, proc.id ∈ d.ref_ids := by
  unfold updRateDicts
  dsimp only
  rw [if_pos rfl, if_neg hact]
  by_cases hm : ((ds.map (removeRate proc.id)).any fun d =>
      decide (proc.p = d.p) && decide (proc.T_reactor = d.T_reactor)) = true
  · rw [if_pos hm]
    obtain ⟨d, hd, hcond⟩ := List.any_eq_true.mp hm
    simp only [Bool.and_eq_true, decide_eq_true_eq] at hcond
    refine ⟨appendRate proc d, List.mem_map.mpr ⟨d, hd, if_pos hcond⟩, ?_⟩
    rw [appendRate_refIds]
    simp
  · rw [if_neg hm]
    refine ⟨newRate proc (maxId ((ds.map (removeRate proc.id)).map (fun x => x.id)) + 1),
      List.mem_append.mpr (Or.inr (List.mem_singleton.mpr rfl)), ?_⟩
    show proc.id ∈ [proc.id]
    simp

theorem updRateDicts_removes (proc : ProcData) (ds : List RateDict)
    (deleted : Bool) (hcnt : ∀ d ∈ ds, d.ref_ids.count proc.id ≤ 1)
    (h : deleted = true ∨ proc.is_active = some false) :
    ∀ d ∈ updRateDicts proc ds deleted, proc.id ∉ d.ref_ids := by
  have hrm : ∀ d ∈ ds.map (removeRate proc.id), proc.id ∉ d.ref_ids := by
    intro d hd
    obtain ⟨d0, hd0, rfl⟩ := List.mem_map.mp hd
    rw [removeRate_refIds]
    intro hmem
    have hc := List.count_pos_iff.mpr hmem
    rw [List.count_erase_self] at hc
    have := hcnt d0 hd0
    omega
  unfold updRateDicts
  dsimp only
  rcases h with hdel | hact
  · rw [if_neg (by rw [hdel]; exact Bool.true_eq_false ▸ (by simp))]
    exact hrm
  · by_cases hdel : deleted = false
    · rw [if_pos hdel, if_pos hact]
      exact hrm
    · rw [if_neg hdel]
      exact hrm

/-- C10: the insertion pass of `upd_rate_dicts` skips an observation only
when its `is_active` field is literally `False` or the event is a deletion:
an observation whose `is_active` is missing/null is treated as active and is
inserted into some group, while a deletion or an explicit `False` leaves the
observation in no group. -/
theorem insertion_skips_only_explicit_inactive :
    (∀ (proc : ProcData) (ds : List RateDict),
      proc.is_active ≠ some false →
      ∃ d ∈ updRateDicts proc ds false, proc.id ∈ d.ref_ids) ∧
    (∀ (proc : ProcData) (ds : List RateDict) (deleted : Bool),
      (∀ d ∈ ds, d.ref_ids.count proc.id ≤ 1) →
      (deleted = true ∨ proc.is_active = some false) →
      ∀ d ∈ updRateDicts proc ds deleted, proc.id ∉ d.ref_ids) :=
  ⟨fun proc ds hact => updRateDicts_inserts proc ds hact,
   fun proc ds deleted hcnt h => updRateDicts_removes proc ds deleted hcnt h⟩

/-- Witness for C10: an observation with a missing (`none`) `is_active` flag
is inserted; an observation with `is_active = False` is removed from the one
group holding it and re-inserted nowhere. -/
theorem insertion_skips_only_explicit_inactive_witness :
    (∃ d ∈ updRateDicts
        ⟨7, some 100000, some 300, some 1, some (1/2), none, some false⟩ [] false,
      7 ∈ d.ref_ids) ∧
    (∀ d ∈ updRateDicts
        ⟨8, some 100000, some 300, some 1, some (1/2), some false, some false⟩
        [{ id := 1, ref_ids := [8], p := some 100000, T_reactor := some 300,
           tau := [some 1], conversion := [some (1/2)], is_active := [some true],
           is_simulated := [some false], rate := none, r_squared := none,
           error := none, plotdata := none, fitdata := none, simuldata := none,
           updated := false }] false,
      8 ∉ d.ref_ids) :=
  ⟨insertion_skips_only_explicit_inactive.1
      ⟨7, some 100000, some 300, some 1, some (1/2), none, some false⟩ []
      (by simp),
   insertion_skips_only_explicit_inactive.2
      ⟨8, some 100000, some 300, some 1, some (1/2), some false, some false⟩ _ false
      (by intro d hd; rw [List.mem_singleton.mp hd]; simp)
      (Or.inr rfl)⟩

theorem updEaStep_mem_origin (eas : List EaDict) (r : RateDict) :
    ∀ e ∈ updEaStep eas r, ∀ rid ∈ e.ref_ids,
      (∃ e0 ∈ eas, rid ∈ e0.ref_ids) ∨
        (r.updated = true ∧ rid = r.id ∧ r.rate ≠ none ∧ r.error = none) := by
  intro e he rid hrid
  unfold updEaStep at he
  dsimp only at he
  split at he
  case isTrue hu =>
    split at he
    case isTrue hg =>
      have hmap : ∀ e1, e1 ∈ ((eas.map (removeEa r.id)).map fun d =>
          if r.p = d.p then appendEa r (r.is_simulated.any fun b => b == some true) d
          else d) → rid ∈ e1.ref_ids →
          (∃ e0 ∈ eas, rid ∈ e0.ref_ids) ∨ rid = r.id := by
        intro e1 he1 hr1
        obtain ⟨d1, hd1, rfl⟩ := List.mem_map.mp he1
        obtain ⟨d0, hd0, rfl⟩ := List.mem_map.mp hd1
        by_cases hk : r.p = (removeEa r.id d0).p
        · rw [if_pos hk, appendEa_refIds, List.mem_append] at hr1
          rcases hr1 with hr1 | hr1
          · rw [removeEa_refIds] at hr1
            exact Or.inl ⟨d0, hd0, List.mem_of_mem_erase hr1⟩
          · exact Or.inr (List.mem_singleton.mp hr1)
        · rw [if_neg hk, removeEa_refIds] at hr1
          exact Or.inl ⟨d0, hd0, List.mem_of_mem_erase hr1⟩
      split at he
      case isTrue hm =>
        rcases hmap e he hrid with hold | hnew
        · exact Or.inl hold
        · exact Or.inr ⟨hu, hnew, hg.1, hg.2⟩
      case isFalse hm =>
        rcases List.mem_append.mp he with he1 | he1
        · rcases hmap e he1 hrid with hold | hnew
          · exact Or.inl hold
          · exact Or.inr ⟨hu, hnew, hg.1, hg.2⟩
        · rw [List.mem_singleton.mp he1] at hrid
          exact Or.inr ⟨hu, List.mem_singleton.mp hrid, hg.1, hg.2⟩
    case isFalse hg =>
      obtain ⟨d0, hd0, rfl⟩ := List.mem_map.mp he
      rw [removeEa_refIds] at hrid
      exact Or.inl ⟨d0, hd0, List.mem_of_mem_erase hrid⟩
  case isFalse hu =>
    exact Or.inl ⟨e, he, hrid⟩

theorem updEaDicts_mem_origin (rates : List RateDict) (eas : List EaDict) :
    ∀ e ∈ updEaDicts rates eas, ∀ rid ∈ e.ref_ids,
      (∃ e0 ∈ eas, rid ∈ e0.ref_ids) ∨
        (∃ r ∈ rates, r.updated = true ∧ rid = r.id ∧ r.rate ≠ none ∧
          r.error = none) := by
  unfold updEaDicts
  induction rates generalizing eas with
  | nil => exact fun e he rid hrid => Or.inl ⟨e, he, hrid⟩
  | cons r rest ih =>
    intro e he rid hrid
    rw [List.foldl_cons] at he
    rcases ih (updEaStep eas r) e he rid hrid with hold | ⟨r1, hr1, hr2⟩
    · obtain ⟨e0, he0, hre0⟩ := hold
      rcases updEaStep_mem_origin eas r e0 he0 rid hre0 with hold2 | hnew
      · exact Or.inl hold2
      · exact Or.inr ⟨r, List.mem_cons_self r rest, hnew⟩
    · exact Or.inr ⟨r1, List.mem_cons_of_mem r hr1, hr2⟩

theorem updRoStep_mem_origin (ros : List RoDict) (r : RateDict) :
    ∀ o ∈ updRoStep r ros, ∀ rid ∈ o.ref_ids,
      (∃ o0 ∈ ros, rid ∈ o0.ref_ids) ∨
        (rid = r.id ∧ r.rate ≠ none ∧ r.error = none) := by
  intro o ho rid hrid
  unfold updRoStep at ho
  dsimp only at ho
  split at ho
  case isTrue hg =>
    have hmap : ∀ o1, o1 ∈ ((ros.map (removeRo r.id)).map fun d =>
        if r.T_reactor = d.T_reactor then
          appendRo r (r.is_simulated.any fun b => b == some true) d
        else d) → rid ∈ o1.ref_ids →
        (∃ o0 ∈ ros, rid ∈ o0.ref_ids) ∨ rid = r.id := by
      intro o1 ho1 hr1
      obtain ⟨d1, hd1, rfl⟩ := List.mem_map.mp ho1
      obtain ⟨d0, hd0, rfl⟩ := List.mem_map.mp hd1
      by_cases hk : r.T_reactor = (removeRo r.id d0).T_reactor
      · rw [if_pos hk, appendRo_refIds, List.mem_append] at hr1
        rcases hr1 with hr1 | hr1
        · rw [removeRo_refIds] at hr1
          exact Or.inl ⟨d0, hd0, List.mem_of_mem_erase hr1⟩
        · exact Or.inr (List.mem_singleton.mp hr1)
      · rw [if_neg hk, removeRo_refIds] at hr1
        exact Or.inl ⟨d0, hd0, List.mem_of_mem_erase hr1⟩
    split at ho
    case isTrue hm =>
      rcases hmap o ho hrid with hold | hnew
      · exact Or.inl hold
      · exact Or.inr ⟨hnew, hg.1, hg.2⟩
    case isFalse hm =>
      rcases List.mem_append.mp ho with ho1 | ho1
      · rcases hmap o ho1 hrid with hold | hnew
        · exact Or.inl hold
        · exact Or.inr ⟨hnew, hg.1, hg.2⟩
      · rw [List.mem_singleton.mp ho1] at hrid
        exact Or.inr ⟨List.mem_singleton.mp hrid, hg.1, hg.2⟩
  case isFalse hg =>
    obtain ⟨d0, hd0, rfl⟩ := List.mem_map.mp ho
    rw [removeRo_refIds] at hrid
    exact Or.inl ⟨d0, hd0, List.mem_of_mem_erase hrid⟩

theorem updRoDicts_mem_origin (rates : List RateDict) (ros : List RoDict) :
    ∀ o ∈ (updRoDicts rates ros).2, ∀ rid ∈ o.ref_ids,
      (∃ o0 ∈ ros, rid ∈ o0.ref_ids) ∨
        (∃ r ∈ rates, r.updated = true ∧ rid = r.id ∧ r.rate ≠ none ∧
          r.error = none) := by
  rw [updRoDicts_snd]
  induction rates generalizing ros with
  | nil => exact fun o ho rid hrid => Or.inl ⟨o, ho, hrid⟩
  | cons r rest ih =>
    intro o ho rid hrid
    rw [List.foldl_cons] at ho
    by_cases hu : r.updated = true
    · rw [if_pos hu] at ho
      rcases ih (updRoStep r ros) o ho rid hrid with hold | ⟨r1, hr1, hr2⟩
      · obtain ⟨o0, ho0, hro0⟩ := hold
        rcases updRoStep_mem_origin ros r o0 ho0 rid hro0 with hold2 | hnew
        · exact Or.inl hold2
        · exact Or.inr ⟨r, List.mem_cons_self r rest, hu, hnew⟩
      · exact Or.inr ⟨r1, List.mem_cons_of_mem r hr1, hr2⟩
    · rw [if_neg hu] at ho
      rcases ih ros o ho rid hrid with hold | ⟨r1, hr1, hr2⟩
      · exact Or.inl hold
      · exact Or.inr ⟨r1, List.mem_cons_of_mem r hr1, hr2⟩

/-- Counterexample to C4 as stated: an ACTIVE observation whose derived
`tau` and `conversion` are both null is nevertheless inserted into a
rate-family group by `upd_rate_dicts` (the rate family makes no null check
on the derived values; the nulls are appended to the columns). -/
theorem null_derivation_still_grouped_counterexample :
    (updRateDicts
        ⟨7, some 100000, some 300, none, none, some true, some false⟩ []
        false).map (fun d => (d.ref_ids, d.tau, d.conversion)) =
      [([7], [(none : Option ℚ)], [(none : Option ℚ)])] := by
  simp [updRateDicts, newRate, maxId]

/-- C4 amended: the null-exclusion rule holds for the downstream families
only — a rate group enters an Ea or reaction-order group only when its
fitted `rate` is non-null (and its `error` is null) — while the rate family
itself inserts every active observation regardless of null derived values. -/
theorem null_derivation_exclusion_amended :
    (∀ (rates : List RateDict) (eas : List EaDict),
      ∀ e ∈ updEaDicts rates eas, ∀ rid ∈ e.ref_ids,
        (∃ e0 ∈ eas, rid ∈ e0.ref_ids) ∨
          (∃ r ∈ rates, rid = r.id ∧ r.rate ≠ none ∧ r.error = none)) ∧
    (∀ (rates : List RateDict) (ros : List RoDict),
      ∀ o ∈ (updRoDicts rates ros).2, ∀ rid ∈ o.ref_ids,
        (∃ o0 ∈ ros, rid ∈ o0.ref_ids) ∨
          (∃ r ∈ rates, rid = r.id ∧ r.rate ≠ none ∧ r.error = none)) ∧
    (∀ (proc : ProcData) (ds : List RateDict),
      proc.tau = none → proc.conversion = none →
      proc.is_active ≠ some false →
      ∃ d ∈ updRateDicts proc ds false, proc.id ∈ d.ref_ids) := by
  refine ⟨?_, ?_, ?_⟩
  · intro rates eas e he rid hrid
    rcases updEaDicts_mem_origin rates eas e he rid hrid with hold | ⟨r, hr, _, h2, h3, h4⟩
    · exact Or.inl hold
    · exact Or.inr ⟨r, hr, h2, h3, h4⟩
  · intro rates ros o ho rid hrid
    rcases updRoDicts_mem_origin rates ros o ho rid hrid with hold | ⟨r, hr, _, h2, h3, h4⟩
    · exact Or.inl hold
    · exact Or.inr ⟨r, hr, h2, h3, h4⟩
  · intro proc ds _ _ hact
    exact updRateDicts_inserts proc ds hact

/-- Witness for the amended C4: a concrete active observation with null
derived values is inserted into a rate group, and a concrete Ea update from
a rate group with a null rate inserts nothing new. -/
theorem null_derivation_exclusion_amended_witness :
    (∃ d ∈ updRateDicts
        ⟨9, none, some 300, none, none, none, none⟩ [] false,
      9 ∈ d.ref_ids) ∧
    (∀ e ∈ updEaDicts
        [{ id := 1, ref_ids := [], p := some 100000, T_reactor := some 300,
           tau := [], conversion := [], is_active := [], is_simulated := [],
           rate := none, r_squared := none, error := none, plotdata := none,
           fitdata := none, simuldata := none, updated := true }] [],
      ∀ rid ∈ e.ref_ids, False) :=
  ⟨null_derivation_exclusion_amended.2.2
      ⟨9, none, some 300, none, none, none, none⟩ [] rfl rfl (by simp),
   fun e he rid hrid => by
     rcases null_derivation_exclusion_amended.1 _ [] e he rid hrid with
       ⟨e0, he0, _⟩ | ⟨r, hr, _, h3, _⟩
     · cases he0
     · rw [List.mem_singleton.mp hr] at h3
       exact h3 rfl⟩

theorem seqOption_length {α : Type} {l : List (Option α)} {ts : List α}
    (h : seqOption l = some ts) : ts.length = l.length := by
  induction l generalizing ts with
  | nil => simp [seqOption] at h; simp [h]
  | cons a t ih =>
    cases a with
    | none => simp [seqOption] at h
    | some v =>
      simp only [seqOption, Option.map_eq_some'] at h
      obtain ⟨ts0, hts0, rfl⟩ := h
      simp [ih hts0]

theorem rateTier_none_of_ge_one {n : Nat} {prev : Option String}
    (h1 : 1 ≤ n) (h : rateTier n prev = none) : 3 ≤ n := by
  match n, h1 with
  | 1, _ => simp [rateTier, rateErrOne] at h
  | 2, _ => simp [rateTier, rateErrTwo] at h
  | (k + 3), _ => omega

/-- If an updated rate group (whose stored rate was nulled by the membership
passes) satisfies the propagation guard after `upd_rates` — non-null `rate`
and null `error` — then its real observations span at least three distinct
tau values. -/
theorem updRateOne_guard_distinct {d : RateDict}
    (hupd : d.updated = true) (hrate : d.rate = none)
    (hg : (updRateOne d).rate ≠ none ∧ (updRateOne d).error = none) :
    ∃ ts, seqOption d.tau = some ts ∧ 3 ≤ ts.dedup.length := by
  obtain ⟨hg1, hg2⟩ := hg
  unfold updRateOne at hg1 hg2
  rw [if_pos hupd] at hg1 hg2
  by_cases hlen : 1 ≤ d.tau.dedup.length
  · rw [if_pos hlen] at hg1 hg2
    unfold performRateAnalysis at hg1 hg2
    rcases hts : seqOption d.tau with _ | ts
    · rw [hts] at hg1
      exact absurd hrate hg1
    · rw [hts] at hg1 hg2
      rcases hcs : seqOption d.conversion with _ | cs
      · rw [hcs] at hg1
        exact absurd hrate hg1
      · rw [hcs] at hg1 hg2
        dsimp only at hg1 hg2
        rcases hcr : calcRate (ts ++ [0]) (cs ++ [0]) with _ | ⟨r, rsq⟩
        · rw [hcr] at hg1
          exact absurd hrate hg1
        · rw [hcr] at hg1 hg2
          dsimp only at hg1 hg2
          by_cases hr : r = 0
          · rw [if_pos hr] at hg1
            simp [hr] at hg1
          · rw [if_neg hr] at hg1 hg2
            refine ⟨ts, rfl, ?_⟩
            have hts1 : 1 ≤ ts.dedup.length := by
              have hne : d.tau ≠ [] := by
                intro hnil
                rw [hnil] at hlen
                simp [List.dedup] at hlen
              have : ts ≠ [] := by
                intro hnil
                apply hne
                have := seqOption_length hts
                rw [hnil] at this
                exact List.length_eq_zero.mp this.symm
              have : ts.dedup ≠ [] := by
                simpa [List.dedup_eq_nil]
              have := List.length_pos.mpr this
              omega
            exact rateTier_none_of_ge_one hts1 hg2
  · rw [if_neg hlen] at hg1
    exact absurd rfl hg1

/-- C9: a rate group's fitted rate propagates into Ea-group or
reaction-order-group membership only when its fit used at least three
distinct tau values.  Any id newly present in a downstream group after the
`upd_rates` → `upd_ea_dicts`/`upd_ro_dicts` passes belongs to a rate group
whose real observations span ≥ 3 distinct tau values; a one- or two-distinct
tau "estimate" (non-null error string) is never inserted. -/
theorem estimate_rate_never_propagated
    (ds : List RateDict) (eas : List EaDict) (ros : List RoDict)
    (hpre : ∀ d ∈ ds, d.updated = true → d.rate = none) :
    (∀ e ∈ updEaDicts (updRates ds) eas, ∀ rid ∈ e.ref_ids,
      (∃ e0 ∈ eas, rid ∈ e0.ref_ids) ∨
        (∃ d ∈ ds, d.id = rid ∧
          ∃ ts, seqOption d.tau = some ts ∧ 3 ≤ ts.dedup.length)) ∧
    (∀ o ∈ (updRoDicts (updRates ds) ros).2, ∀ rid ∈ o.ref_ids,
      (∃ o0 ∈ ros, rid ∈ o0.ref_ids) ∨
        (∃ d ∈ ds, d.id = rid ∧
          ∃ ts, seqOption d.tau = some ts ∧ 3 ≤ ts.dedup.length)) := by
  have hstep : ∀ r ∈ updRates ds, r.updated = true → r.rate ≠ none →
      r.error = none →
      ∃ d ∈ ds, d.id = r.id ∧
        ∃ ts, seqOption d.tau = some ts ∧ 3 ≤ ts.dedup.length := by
    intro r hr hupd hrate herr
    obtain ⟨d0, hd0, rfl⟩ := List.mem_map.mp hr
    have hupd0 : d0.updated = true := by rw [← updRateOne_updated d0]; exact hupd
    obtain ⟨ts, hts, h3⟩ :=
      updRateOne_guard_distinct hupd0 (hpre d0 hd0 hupd0) ⟨hrate, herr⟩
    exact ⟨d0, hd0, (updRateOne_id d0).symm ▸ rfl, ts, hts, h3⟩
  constructor
  · intro e he rid hrid
    rcases updEaDicts_mem_origin (updRates ds) eas e he rid hrid with
      hold | ⟨r, hr, hu, hid, h3, h4⟩
    · exact Or.inl hold
    · obtain ⟨d, hd, hdid, hts⟩ := hstep r hr hu h3 h4
      exact Or.inr ⟨d, hd, hid ▸ hdid, hts⟩
  · intro o ho rid hrid
    rcases updRoDicts_mem_origin (updRates ds) ros o ho rid hrid with
      hold | ⟨r, hr, hu, hid, h3, h4⟩
    · exact Or.inl hold
    · obtain ⟨d, hd, hdid, hts⟩ := hstep r hr hu h3 h4
      exact Or.inr ⟨d, hd, hid ▸ hdid, hts⟩

/-- Witness for C9: a rate group with only two distinct tau values (an
"estimate") is inserted into no Ea group — every Ea group of the resulting
state has an empty member list. -/
theorem estimate_rate_never_propagated_witness :
    ((updEaDicts (updRates
      [{ id := 1, ref_ids := [4, 5], p := some 100000, T_reactor := some 300,
         tau := [some 1, some 2], conversion := [some (1/4), some (1/2)],
         is_active := [some true, some true],
         is_simulated := [some false, some false], rate := none,
         r_squared := none, error := none, plotdata := none, fitdata := none,
         simuldata := none, updated := true }]) []).all
      fun e => e.ref_ids.isEmpty) = true := by
  rw [List.all_eq_true]
  intro e he
  rcases hr : e.ref_ids with _ | ⟨rid, rest⟩
  · rfl
  · exfalso
    have hrid : rid ∈ e.ref_ids := by rw [hr]; exact List.mem_cons_self rid rest
    rcases (estimate_rate_never_propagated _ [] []
        (by intro d hd _; rw [List.mem_singleton.mp hd])).1 e he rid hrid with
      ⟨e0, he0, _⟩ | ⟨d, hd, _, ts, hts, h3⟩
    · cases he0
    · rw [List.mem_singleton.mp hd] at hts
      rw [show seqOption ([some 1, some 2] : List (Option ℚ)) = some [1, 2]
        from rfl] at hts
      injection hts with hts
      rw [← hts] at h3
      have h21 : ([2] : List ℚ).dedup = [2] := by
        rw [List.dedup_cons_of_not_mem (by simp), List.dedup_nil]
      have hlen : ([1, 2] : List ℚ).dedup.length = 2 := by
        rw [List.dedup_cons_of_not_mem (by norm_num), h21]
        rfl
      rw [hlen] at h3
      omega

/-- C7: `perform_rate_analysis` always appends the synthetic origin point
(tau = 0, conversion = 0) to the fit input before curve fitting — the
fitted rate and the fit curve are computed from `tau ++ [0]` and
`conversion ++ [0]` — while the unique-tau count driving the 1/2/≥3
diagnostic tiers is computed over the real observations only, before the
origin point is appended. -/
theorem origin_point_injection {d : RateDict} {ts cs : List ℚ} {m : ℚ}
    {rs : Option ℚ}
    (hts : seqOption d.tau = some ts) (hcs : seqOption d.conversion = some cs)
    (hfit : calcRate (ts ++ [0]) (cs ++ [0]) = some (m, rs)) (hm : m ≠ 0) :
    (performRateAnalysis d).rate = some m ∧
    (performRateAnalysis d).fitdata =
      some ((fitGrid (ts ++ [0])).zip
        ((fitGrid (ts ++ [0])).map fun x => m * x)) ∧
    (performRateAnalysis d).error = rateTier ts.dedup.length d.error := by
  unfold performRateAnalysis
  rw [hts, hcs]
  dsimp only
  rw [hfit]
  dsimp only
  rw [if_neg hm]
  exact ⟨by simp [hm], rfl, rfl⟩

/-- Witness for C7: with two real observations at the single tau value 1,
the fit runs over three points (the origin appended) and returns the slope
1/2, while the diagnostic still reports "only one unique tau value". -/
theorem origin_point_injection_witness :
    (performRateAnalysis
      { id := 1, ref_ids := [4, 5], p := some 100000, T_reactor := some 300,
        tau := [some 1, some 1], conversion := [some (1/2), some (1/2)],
        is_active := [some true, some true],
        is_simulated := [some false, some false], rate := none,
        r_squared := none, error := none, plotdata := none, fitdata := none,
        simuldata := none, updated := true }).rate = some (1/2) ∧
    (performRateAnalysis
      { id := 1, ref_ids := [4, 5], p := some 100000, T_reactor := some 300,
        tau := [some 1, some 1], conversion := [some (1/2), some (1/2)],
        is_active := [some true, some true],
        is_simulated := [some false, some false], rate := none,
        r_squared := none, error := none, plotdata := none, fitdata := none,
        simuldata := none, updated := true }).error = some rateErrOne := by
  have hfit : calcRate ([1, 1] ++ [0]) ([1/2, 1/2] ++ [0]) =
      some (1/2, some 1) := by
    norm_num [calcRate, sumSq, dotL, rsqOf, ssRes, ssTot, meanL]
  have h := origin_point_injection
    (d := ⟨1, [4, 5], some 100000, some 300, [some 1, some 1],
      [some (1/2), some (1/2)], [some true, some true],
      [some false, some false], none, none, none, none, none, none, true⟩)
    rfl rfl hfit (by norm_num)
  refine ⟨h.1, ?_⟩
  rw [h.2.2]
  show rateTier ([1, 1] : List ℚ).dedup.length none = some rateErrOne
  have hdl : ([1, 1] : List ℚ).dedup.length = 1 := by
    rw [List.dedup_cons_of_mem (by norm_num), List.dedup_cons_of_not_mem (by simp),
      List.dedup_nil]
    rfl
  rw [hdl]
  rfl

/-- Counterexample to C1 as stated: (a) a dirty rate group with exactly ONE
distinct tau value does NOT get null fit fields — `upd_rates` still fits
(through the appended origin point) and stores a non-null rate next to the
non-null error string; (b) a dirty Ea group with exactly one distinct
`T_reactor` gets null fit fields but its `error` field stays null — no
user-facing error string is set by `upd_ea` in the one-distinct-value tier. -/
theorem threshold_policy_counterexample :
    ((updRates
      [{ id := 1, ref_ids := [4, 5], p := some 100000, T_reactor := some 300,
         tau := [some 1, some 1], conversion := [some (1/2), some (1/2)],
         is_active := [some true, some true],
         is_simulated := [some false, some false], rate := none,
         r_squared := none, error := none, plotdata := none, fitdata := none,
         simuldata := none, updated := true }]).map
        (fun d => (d.rate, d.error)) = [(some (1/2), some rateErrOne)]) ∧
    ((updEa (fun x => x)
      [{ id := 1, ref_ids := [3], p := some 100000, T_reactor := [some 300],
         rate := [some 1], Ea := none, A_app := none, r_squared := none,
         error := none, plotdata := none, fitdata := none,
         is_simulated := some false, updated := true }]).map
        (fun d => (d.Ea, d.A_app, d.error)) =
      [((none : Option ℚ), (none : Option ℚ), (none : Option String))]) := by
  constructor
  · norm_num [updRates, updRateOne, performRateAnalysis, seqOption, calcRate,
      sumSq, dotL, rsqOf, ssRes, ssTot, meanL, List.dedup, rateTier]
  · norm_num [updEa, updEaOne, List.dedup]

theorem rateTier_eq_none_of_ge3 {n : Nat} (prev : Option String)
    (h : 3 ≤ n) : rateTier n prev = none := by
  match n, h with
  | (k + 3), _ => rfl

theorem eaTier_eq_none_of_ge3 {n : Nat} (prev : Option String)
    (h : 3 ≤ n) : eaTier n prev = none := by
  match n, h with
  | (k + 3), _ => rfl

theorem one_le_dedup_length_of_ne_nil {α : Type} [DecidableEq α]
    {l : List α} (h : l ≠ []) : 1 ≤ l.dedup.length := by
  have : l.dedup ≠ [] := by simpa [List.dedup_eq_nil]
  have := List.length_pos.mpr this
  omega

theorem tau_nonempty_of_seq {d : RateDict} {ts : List ℚ}
    (hts : seqOption d.tau = some ts) (h : ts ≠ []) :
    1 ≤ d.tau.dedup.length := by
  apply one_le_dedup_length_of_ne_nil
  intro hnil
  apply h
  have := seqOption_length hts
  rw [hnil] at this
  exact List.length_eq_zero.mp this

/-- The fit outcome of `upd_rates` on an updated rate group, as a function
of the distinct count of its real tau values: shared workhorse for the
amended threshold-policy claim. -/
theorem updRateOne_fit_outcome {d : RateDict} {ts cs : List ℚ} {m : ℚ}
    {rs : Option ℚ}
    (hupd : d.updated = true)
    (hts : seqOption d.tau = some ts) (hcs : seqOption d.conversion = some cs)
    (hne : ts ≠ [])
    (hfit : calcRate (ts ++ [0]) (cs ++ [0]) = some (m, rs)) (hm : m ≠ 0) :
    (updRateOne d).rate = some m ∧
      (updRateOne d).error = rateTier ts.dedup.length d.error := by
  unfold updRateOne
  rw [if_pos hupd, if_pos (tau_nonempty_of_seq hts hne)]
  have h := origin_point_injection hts hcs hfit hm
  exact ⟨h.1, h.2.2⟩

/-- The fit outcome of `upd_ea` on an updated Ea group with at least two
distinct stored temperatures. -/
theorem updEaOne_fit_outcome (lnFn : ℚ → ℚ) {d : EaDict} {rs Ts : List ℚ}
    {sl ic : ℚ} {rq : Option ℚ}
    (hupd : d.updated = true)
    (hrs : seqOption d.rate = some rs) (hTs : seqOption d.T_reactor = some Ts)
    (hz : (0 : ℚ) ∉ Ts) (h2 : 2 ≤ d.T_reactor.dedup.length)
    (hslope : calcSlope (Ts.map fun T => 1 / T) (rs.map lnFn) =
      some (sl, ic, rq)) :
    (updEaOne lnFn d).Ea = some (-sl * Rgas) ∧
      (updEaOne lnFn d).A_app = some ic ∧
      (updEaOne lnFn d).error = eaTier d.T_reactor.dedup.length d.error := by
  unfold updEaOne
  rw [if_pos hupd, if_pos h2]
  unfold performEaAnalysis
  rw [hrs, hTs]
  dsimp only
  rw [if_neg hz]
  rw [hslope]
  exact ⟨rfl, rfl, rfl⟩

theorem roTier_eq_none_of_ge3 {n : Nat} (prev : Option String)
    (h : 3 ≤ n) : roTier n prev = none := by
  match n, h with
  | (k + 3), _ => rfl

/-- The fit outcome of `upd_ro` on an updated reaction-order group with at
least two distinct stored pressures. -/
theorem updRoOne_fit_outcome (log10Fn : ℚ → ℚ) {d : RoDict} {rs ps : List ℚ}
    {sl ic : ℚ} {rq : Option ℚ}
    (hupd : d.updated = true)
    (hrs : seqOption d.rate = some rs) (hps : seqOption d.p = some ps)
    (h2 : 2 ≤ d.p.dedup.length)
    (hslope : calcSlope (ps.map fun x => log10Fn (x / 100000))
      (rs.map log10Fn) = some (sl, ic, rq)) :
    (updRoOne log10Fn d).r_order = some sl ∧
      (updRoOne log10Fn d).error = roTier d.p.dedup.length d.error := by
  unfold updRoOne
  rw [if_pos hupd, if_pos h2]
  unfold performRoAnalysis
  rw [hrs, hps]
  dsimp only
  rw [hslope]
  exact ⟨rfl, rfl⟩

/-- C1 amended: the three-tier distinct-value policy as the code actually
implements it, for all three families.  Rate family (`upd_rates`): a dirty
group with ONE distinct tau still gets a fit — non-null `rate` — together
with the non-null one-unique error string; two distinct values give the fit
plus the "estimate" warning; three or more clear the error.  Ea family
(`upd_ea`): a dirty group with one distinct `T_reactor` gets null
`Ea`/`A_app` and its `error` field left untouched (null in pipeline
states); two distinct values give a non-null fit plus the "estimate"
warning; three or more clear the error.  Reaction-order family (`upd_ro`),
keyed on distinct pressures `p`: identical shape — one distinct value gives
a null `r_order` with `error` untouched, two give a non-null fit plus the
"estimate" warning, three or more clear the error. -/
theorem threshold_policy_amended (lnFn log10Fn : ℚ → ℚ) :
    (∀ (d : RateDict) (ts cs : List ℚ) (m : ℚ) (rs : Option ℚ),
      d.updated = true → seqOption d.tau = some ts →
      seqOption d.conversion = some cs →
      calcRate (ts ++ [0]) (cs ++ [0]) = some (m, rs) → m ≠ 0 →
      ((ts.dedup.length = 1 →
        (updRateOne d).rate = some m ∧ (updRateOne d).error = some rateErrOne) ∧
       (ts.dedup.length = 2 →
        (updRateOne d).rate = some m ∧ (updRateOne d).error = some rateErrTwo) ∧
       (3 ≤ ts.dedup.length →
        (updRateOne d).rate = some m ∧ (updRateOne d).error = none))) ∧
    (∀ d : EaDict, d.updated = true → d.T_reactor.dedup.length = 1 →
      (updEaOne lnFn d).Ea = none ∧ (updEaOne lnFn d).A_app = none ∧
      (updEaOne lnFn d).error = d.error) ∧
    (∀ (d : EaDict) (rs Ts : List ℚ) (sl ic : ℚ) (rq : Option ℚ),
      d.updated = true → seqOption d.rate = some rs →
      seqOption d.T_reactor = some Ts → (0 : ℚ) ∉ Ts →
      calcSlope (Ts.map fun T => 1 / T) (rs.map lnFn) = some (sl, ic, rq) →
      ((d.T_reactor.dedup.length = 2 →
        (updEaOne lnFn d).Ea = some (-sl * Rgas) ∧
        (updEaOne lnFn d).error = some eaErrTwo) ∧
       (3 ≤ d.T_reactor.dedup.length →
        (updEaOne lnFn d).Ea = some (-sl * Rgas) ∧
        (updEaOne lnFn d).error = none))) ∧
    (∀ d : RoDict, d.updated = true → d.p.dedup.length = 1 →
      (updRoOne log10Fn d).r_order = none ∧
      (updRoOne log10Fn d).error = d.error) ∧
    (∀ (d : RoDict) (rs ps : List ℚ) (sl ic : ℚ) (rq : Option ℚ),
      d.updated = true → seqOption d.rate = some rs →
      seqOption d.p = some ps →
      calcSlope (ps.map fun x => log10Fn (x / 100000)) (rs.map log10Fn) =
        some (sl, ic, rq) →
      ((d.p.dedup.length = 2 →
        (updRoOne log10Fn d).r_order = some sl ∧
        (updRoOne log10Fn d).error = some roErrTwo) ∧
       (3 ≤ d.p.dedup.length →
        (updRoOne log10Fn d).r_order = some sl ∧
        (updRoOne log10Fn d).error = none))) := by
  refine ⟨?_, ?_, ?_, ?_, ?_⟩
  · intro d ts cs m rs hupd hts hcs hfit hm
    have hne : ∀ k, ts.dedup.length = k + 1 → ts ≠ [] := by
      intro k hk hnil
      rw [hnil] at hk
      simp [List.dedup_nil] at hk
    refine ⟨?_, ?_, ?_⟩
    · intro hcount
      obtain ⟨h1, h2⟩ := updRateOne_fit_outcome hupd hts hcs
        (hne 0 hcount) hfit hm
      rw [hcount] at h2
      exact ⟨h1, h2⟩
    · intro hcount
      obtain ⟨h1, h2⟩ := updRateOne_fit_outcome hupd hts hcs
        (hne 1 hcount) hfit hm
      rw [hcount] at h2
      exact ⟨h1, h2⟩
    · intro hcount
      have hk : ts.dedup.length = (ts.dedup.length - 1) + 1 := by omega
      obtain ⟨h1, h2⟩ := updRateOne_fit_outcome hupd hts hcs
        (hne _ hk) hfit hm
      rw [rateTier_eq_none_of_ge3 d.error hcount] at h2
      exact ⟨h1, h2⟩
  · intro d hupd hcount
    unfold updEaOne
    rw [if_pos hupd, if_neg (by omega : ¬ 2 ≤ d.T_reactor.dedup.length)]
    exact ⟨rfl, rfl, rfl⟩
  · intro d rs Ts sl ic rq hupd hrs hTs hz hslope
    constructor
    · intro hcount
      obtain ⟨h1, _, h3⟩ := updEaOne_fit_outcome lnFn hupd hrs hTs hz
        (by omega) hslope
      rw [hcount] at h3
      exact ⟨h1, h3⟩
    · intro hcount
      obtain ⟨h1, _, h3⟩ := updEaOne_fit_outcome lnFn hupd hrs hTs hz
        (by omega) hslope
      rw [eaTier_eq_none_of_ge3 d.error hcount] at h3
      exact ⟨h1, h3⟩
  · intro d hupd hcount
    unfold updRoOne
    rw [if_pos hupd, if_neg (by omega : ¬ 2 ≤ d.p.dedup.length)]
    exact ⟨rfl, rfl⟩
  · intro d rs ps sl ic rq hupd hrs hps hslope
    constructor
    · intro hcount
      obtain ⟨h1, h2⟩ := updRoOne_fit_outcome log10Fn hupd hrs hps
        (by omega) hslope
      rw [hcount] at h2
      exact ⟨h1, h2⟩
    · intro hcount
      obtain ⟨h1, h2⟩ := updRoOne_fit_outcome log10Fn hupd hrs hps
        (by omega) hslope
      rw [roTier_eq_none_of_ge3 d.error hcount] at h2
      exact ⟨h1, h2⟩

/-- Witness for the amended C1: a dirty rate group with two distinct tau
values gets the fitted rate 1/4 plus the two-unique estimate warning, a
dirty Ea group with two distinct temperatures gets a non-null Ea plus the
two-unique estimate warning, and a dirty reaction-order group with two
distinct pressures gets a non-null reaction order plus the two-unique
estimate warning. -/
theorem threshold_policy_amended_witness :
    ((updRateOne
      ⟨1, [4, 5], some 100000, some 300, [some 1, some 2],
        [some (1/4), some (1/2)], [some true, some true],
        [some false, some false], none, none, none, none, none, none,
        true⟩).rate = some (1/4) ∧
     (updRateOne
      ⟨1, [4, 5], some 100000, some 300, [some 1, some 2],
        [some (1/4), some (1/2)], [some true, some true],
        [some false, some false], none, none, none, none, none, none,
        true⟩).error = some rateErrTwo) ∧
    ((updEaOne (fun x => x)
      ⟨1, [3, 4], some 100000, [some 2, some 4], [some 1, some 2],
        none, none, none, none, none, none, some false, true⟩).Ea =
        some (-(-4) * Rgas) ∧
     (updEaOne (fun x => x)
      ⟨1, [3, 4], some 100000, [some 2, some 4], [some 1, some 2],
        none, none, none, none, none, none, some false, true⟩).error =
        some eaErrTwo) ∧
    ((updRoOne (fun x => x)
      ⟨1, [3, 4], some 300, [some 100000, some 200000], [some 1, some 2],
        none, none, none, none, none, some false, true⟩).r_order =
        some 1 ∧
     (updRoOne (fun x => x)
      ⟨1, [3, 4], some 300, [some 100000, some 200000], [some 1, some 2],
        none, none, none, none, none, some false, true⟩).error =
        some roErrTwo) := by
  refine ⟨?_, ?_, ?_⟩
  · have hfit : calcRate ([1, 2] ++ [0]) ([1/4, 1/2] ++ [0]) =
        some (1/4, some 1) := by
      norm_num [calcRate, sumSq, dotL, rsqOf, ssRes, ssTot, meanL]
    have h := ((threshold_policy_amended (fun x => x) (fun x => x)).1
      ⟨1, [4, 5], some 100000, some 300, [some 1, some 2],
        [some (1/4), some (1/2)], [some true, some true],
        [some false, some false], none, none, none, none, none, none, true⟩
      [1, 2] [1/4, 1/2] (1/4) (some 1) rfl rfl rfl hfit (by norm_num)).2.1
    apply h
    rw [List.dedup_cons_of_not_mem (by norm_num),
      List.dedup_cons_of_not_mem (by simp), List.dedup_nil]
    rfl
  · have hslope : calcSlope ([2, 4].map fun T => (1 : ℚ) / T)
        ([1, 2].map (fun x => (x : ℚ))) = some (-4, 3, some 1) := by
      norm_num [calcSlope, ssTot, meanL]
    have h := ((threshold_policy_amended (fun x => x) (fun x => x)).2.2.1
      ⟨1, [3, 4], some 100000, [some 2, some 4], [some 1, some 2],
        none, none, none, none, none, none, some false, true⟩
      [1, 2] [2, 4] (-4) 3 (some 1) rfl rfl rfl (by norm_num) hslope).1
    apply h
    show ([some 2, some 4] : List (Option ℚ)).dedup.length = 2
    rw [List.dedup_cons_of_not_mem (by simp),
      List.dedup_cons_of_not_mem (by simp), List.dedup_nil]
    rfl
  · have hslope : calcSlope
        ([100000, 200000].map fun x => (fun x => (x : ℚ)) (x / 100000))
        ([1, 2].map (fun x => (x : ℚ))) = some (1, 0, some 1) := by
      norm_num [calcSlope, ssTot, meanL]
    have h := ((threshold_policy_amended (fun x => x) (fun x => x)).2.2.2.2
      ⟨1, [3, 4], some 300, [some 100000, some 200000], [some 1, some 2],
        none, none, none, none, none, some false, true⟩
      [1, 2] [100000, 200000] 1 0 (some 1) rfl rfl rfl hslope).1
    apply h
    show ([some 100000, some 200000] : List (Option ℚ)).dedup.length = 2
    rw [List.dedup_cons_of_not_mem (by norm_num),
      List.dedup_cons_of_not_mem (by simp), List.dedup_nil]
    rfl

/-! ## Linear-data facts for `calc_init_slope` -/

theorem sumSq_nonneg (l : List ℚ) : 0 ≤ sumSq l := by
  induction l with
  | nil => exact le_rfl
  | cons a t ih =>
    unfold sumSq at ih ⊢
    rw [List.map_cons, List.sum_cons]
    nlinarith [mul_self_nonneg a]

theorem sumSq_eq_zero_iff (l : List ℚ) : sumSq l = 0 ↔ ∀ a ∈ l, a = 0 := by
  induction l with
  | nil => simp [sumSq]
  | cons a t ih =>
    unfold sumSq at ih ⊢
    rw [List.map_cons, List.sum_cons]
    constructor
    · intro h
      obtain ⟨h1, h2⟩ := (add_eq_zero_iff_of_nonneg (mul_self_nonneg a)
        (sumSq_nonneg t)).mp h
      intro b hb
      rcases List.mem_cons.mp hb with rfl | hb
      · exact mul_self_eq_zero.mp h1
      · exact ih.mp h2 b hb
    · intro h
      rw [h a (List.mem_cons_self a t), ih.mpr fun b hb => h b (List.mem_cons_of_mem a hb)]
      ring

theorem sum_eq_zero_of_nonneg {l : List ℚ} (h : ∀ a ∈ l, 0 ≤ a)
    (hs : l.sum = 0) : ∀ a ∈ l, a = 0 := by
  induction l with
  | nil => intro a ha; cases ha
  | cons b t ih =>
    rw [List.sum_cons] at hs
    have hb : 0 ≤ b := h b (List.mem_cons_self b t)
    have ht : 0 ≤ t.sum :=
      List.sum_nonneg fun a ha => h a (List.mem_cons_of_mem b ha)
    obtain ⟨h1, h2⟩ := (add_eq_zero_iff_of_nonneg hb ht).mp hs
    intro a ha
    rcases List.mem_cons.mp ha with rfl | ha
    · exact h1
    · exact ih (fun c hc => h c (List.mem_cons_of_mem b hc)) h2 a ha

theorem ssTot_nonneg (l : List ℚ) : 0 ≤ ssTot l := by
  unfold ssTot
  apply List.sum_nonneg
  intro a ha
  obtain ⟨b, _, rfl⟩ := List.mem_map.mp ha
  exact mul_self_nonneg _

theorem ssTot_eq_zero_imp {l : List ℚ} (h : ssTot l = 0) :
    ∀ a ∈ l, a = meanL l := by
  intro a ha
  unfold ssTot at h
  have := sum_eq_zero_of_nonneg
    (fun c hc => by
      obtain ⟨b, _, rfl⟩ := List.mem_map.mp hc
      exact mul_self_nonneg _) h
    ((a - meanL l) * (a - meanL l)) (List.mem_map_of_mem _ ha)
  have := mul_self_eq_zero.mp this
  linarith

theorem dotL_linear (l : List ℚ) : dotL l (l.map fun a => 3 * a) = 3 * sumSq l := by
  induction l with
  | nil => simp [dotL, sumSq]
  | cons a t ih =>
    unfold dotL sumSq at ih ⊢
    rw [List.map_cons, List.map_cons, List.zipWith_cons_cons, List.sum_cons,
      List.sum_cons, ih]
    ring

theorem ssRes_linear (l : List ℚ) : ssRes l (l.map fun a => 3 * a) 3 = 0 := by
  induction l with
  | nil => rfl
  | cons a t ih =>
    unfold ssRes at ih ⊢
    rw [List.map_cons, List.zipWith_cons_cons, List.sum_cons, ih]
    ring

theorem two_mem_of_sorted {l : List ℚ} (hp : l.Pairwise (· < ·))
    (h2 : 2 ≤ l.length) : ∃ a ∈ l, ∃ b ∈ l, a < b := by
  match l, h2 with
  | a :: b :: t, _ =>
    have hab : a < b := (List.pairwise_cons.mp hp).1 b (List.mem_cons_self b t)
    exact ⟨a, List.mem_cons_self a _, b,
      List.mem_cons_of_mem a (List.mem_cons_self b t), hab⟩

theorem sumSq_ne_zero_of_sorted {l : List ℚ} (hp : l.Pairwise (· < ·))
    (h2 : 2 ≤ l.length) : sumSq l ≠ 0 := by
  obtain ⟨a, ha, b, hb, hab⟩ := two_mem_of_sorted hp h2
  intro h
  have hall := (sumSq_eq_zero_iff l).mp h
  rw [hall a ha, hall b hb] at hab
  exact lt_irrefl 0 hab

theorem ssTot_linear_ne_zero {l : List ℚ} (hp : l.Pairwise (· < ·))
    (h2 : 2 ≤ l.length) : ssTot (l.map fun a => 3 * a) ≠ 0 := by
  obtain ⟨a, ha, b, hb, hab⟩ := two_mem_of_sorted hp h2
  intro h
  have hall := ssTot_eq_zero_imp h
  have h3a := hall (3 * a) (List.mem_map_of_mem _ ha)
  have h3b := hall (3 * b) (List.mem_map_of_mem _ hb)
  have : (3 : ℚ) * a = 3 * b := by rw [h3a, h3b]
  have : a = b := by linarith
  exact absurd this (ne_of_lt hab)

/-- On exactly linear data `y = 3x` over strictly increasing x values, the
zero-intercept fit returns slope 3 with R² exactly 1. -/
theorem prefix_fit_linear {l : List ℚ} (hp : l.Pairwise (· < ·))
    (h2 : 2 ≤ l.length) :
    zeroInterceptSlope l (l.map fun a => 3 * a) = some 3 ∧
      rsqOf l (l.map fun a => 3 * a) 3 = some 1 := by
  have hs := sumSq_ne_zero_of_sorted hp h2
  have ht := ssTot_linear_ne_zero hp h2
  constructor
  · unfold zeroInterceptSlope
    rw [if_neg hs, dotL_linear]
    rw [mul_div_assoc, div_self hs, mul_one]
  · unfold rsqOf
    rw [if_neg ht, ssRes_linear]
    norm_num

theorem calcInitSlopeLoop_linear (x : List ℚ) (hp : x.Pairwise (· < ·)) :
    ∀ (k i : Nat) (acc : Option SlopeResult), 2 ≤ i → 1 ≤ k →
      i + k = x.length + 1 →
      calcInitSlopeLoop x (x.map fun a => 3 * a) (99/100) 2
        (List.range' i k) acc = some ⟨3, some 1, x.length⟩ := by
  intro k
  induction k with
  | zero => intro i acc _ hk _; omega
  | succ k ih =>
    intro i acc h2 _ hsum
    have hi : i ≤ x.length := by omega
    have hlen : 2 ≤ (x.take i).length := by
      rw [List.length_take]
      omega
    have hfit := prefix_fit_linear (hp.take) hlen
    rw [List.range'_succ]
    simp only [calcInitSlopeLoop]
    rw [← List.map_take, hfit.1]
    simp only [hfit.2]
    have hcond : (rsqGe (some 1) (99/100) || (i == 2)) = true := by
      simp only [rsqGe, Bool.or_eq_true, decide_eq_true_eq]
      left
      norm_num
    rw [hcond, if_pos rfl]
    rcases Nat.eq_zero_or_pos k with rfl | hk1
    · have : i = x.length := by omega
      rw [this]
      rfl
    · exact ih (i + 1) _ (by omega) hk1 (by omega)

/-- C8: on exactly linear data `y = 3·x` with no noise, strictly increasing
x values and `min_points = 2`, `calc_init_slope` returns slope exactly 3
with R² exactly 1, using all input points. -/
theorem progressive_slope_linear_roundtrip (x : List ℚ)
    (hp : x.Pairwise (· < ·)) (h2 : 2 ≤ x.length) :
    calcInitSlope x (x.map fun a => 3 * a) 2 (99/100) =
      some ⟨3, some 1, x.length⟩ := by
  unfold calcInitSlope
  rw [show x.length + 1 - 2 = x.length - 1 from by omega]
  exact calcInitSlopeLoop_linear x hp (x.length - 1) 2 none le_rfl
    (by omega) (by omega)

theorem calcInitSlopeLoop_some (x y : List ℚ) (θ : ℚ) (minPts : Nat)
    (P : SlopeResult → Prop) :
    ∀ (idx : List Nat) (acc : SlopeResult), P acc →
      (∀ i ∈ idx, ∀ m r, P ⟨m, r, i⟩) →
      ∃ res, calcInitSlopeLoop x y θ minPts idx (some acc) = some res ∧
        P res := by
  intro idx
  induction idx with
  | nil => intro acc hacc _; exact ⟨acc, rfl, hacc⟩
  | cons i rest ih =>
    intro acc hacc hall
    simp only [calcInitSlopeLoop]
    rcases hz : zeroInterceptSlope (x.take i) (y.take i) with _ | m
    · exact ⟨acc, rfl, hacc⟩
    · dsimp only
      by_cases hc : (rsqGe (rsqOf (x.take i) (y.take i) m) θ ||
          (i == minPts)) = true
      · rw [if_pos hc]
        exact ih ⟨m, rsqOf (x.take i) (y.take i) m, i⟩
          (hall i (List.mem_cons_self i rest) m _)
          (fun j hj m' r' => hall j (List.mem_cons_of_mem i hj) m' r')
      · rw [if_neg hc]
        exact ⟨acc, rfl, hacc⟩

/-- C3 amended: `calc_init_slope` grows the window WHILE R² stays at or
above the threshold (stopping at the first window that falls below it, not
at the first window that reaches it), and the `min_points` window is always
accepted as a baseline, so on input with at least `min_points` points and a
non-degenerate first window it never returns a null slope; the returned
window size lies between `min_points` and the number of points. -/
theorem progressive_slope_never_none (x y : List ℚ) (minPts : Nat) (θ : ℚ)
    (hmin : minPts ≤ x.length) (hs : sumSq (x.take minPts) ≠ 0) :
    ∃ res : SlopeResult, calcInitSlope x y minPts θ = some res ∧
      minPts ≤ res.numPoints ∧ res.numPoints ≤ x.length := by
  unfold calcInitSlope
  rw [show x.length + 1 - minPts = (x.length - minPts) + 1 from by omega,
    List.range'_succ]
  simp only [calcInitSlopeLoop]
  rw [show zeroInterceptSlope (x.take minPts) (y.take minPts) =
      some (dotL (x.take minPts) (y.take minPts) / sumSq (x.take minPts))
    from by unfold zeroInterceptSlope; rw [if_neg hs]]
  dsimp only
  rw [if_pos (by rw [beq_self_eq_true]; exact Bool.or_true _)]
  apply calcInitSlopeLoop_some x y θ minPts
    (fun res => minPts ≤ res.numPoints ∧ res.numPoints ≤ x.length)
  · exact ⟨le_rfl, hmin⟩
  · intro i hi m r
    rw [List.mem_range'_1] at hi
    constructor
    · show minPts ≤ i
      omega
    · show i ≤ x.length
      omega

/-- Witness for the amended C3 at a concrete input: two points, degenerate
R² never reaching the threshold, yet a non-null result with the baseline
window. -/
theorem progressive_slope_never_none_witness :
    (2 ≤ ([1, 2] : List ℚ).length ∧ sumSq (([1, 2] : List ℚ).take 2) ≠ 0) ∧
    ∃ res : SlopeResult, calcInitSlope [1, 2] [1, 5] 2 (99/100) = some res ∧
      2 ≤ res.numPoints ∧ res.numPoints ≤ ([1, 2] : List ℚ).length := by
  have hs : sumSq (([1, 2] : List ℚ).take 2) ≠ 0 := by
    rw [show (([1, 2] : List ℚ).take 2) = [1, 2] from rfl]
    norm_num [sumSq]
  exact ⟨⟨by norm_num, hs⟩,
    progressive_slope_never_none [1, 2] [1, 5] 2 (99/100) (by norm_num) hs⟩

/-- Counterexample to C3 as stated: on exactly linear data the threshold is
already met at the very first window k = min_points = 2, so a loop that
stops "when R² ≥ threshold is reached" (the spec-worded
`progressiveSlopeSpec`) returns the 2-point fit, but `calc_init_slope`
keeps extending the window while R² stays above the threshold and returns
the 3-point fit: the two functions disagree at this input. -/
theorem progressive_slope_stops_late_counterexample :
    calcInitSlope [1, 2, 3] [3, 6, 9] 2 (99/100) = some ⟨3, some 1, 3⟩ ∧
    progressiveSlopeSpec [1, 2, 3] [3, 6, 9] 2 (99/100) = some ⟨3, some 1, 2⟩ ∧
    (2 : Nat) < 3 := by
  have hp : ([1, 2, 3] : List ℚ).Pairwise (· < ·) := by
    rw [List.pairwise_cons]
    refine ⟨?_, ?_⟩
    · intro b hb
      rcases List.mem_cons.mp hb with rfl | hb
      · norm_num
      · rw [List.mem_singleton.mp hb]; norm_num
    · rw [List.pairwise_cons]
      refine ⟨?_, List.pairwise_singleton _ _⟩
      intro b hb
      rw [List.mem_singleton.mp hb]
      norm_num
  refine ⟨?_, ?_, by omega⟩
  · rw [show ([3, 6, 9] : List ℚ) = ([1, 2, 3] : List ℚ).map (fun a => 3 * a)
      from by norm_num]
    unfold calcInitSlope
    rw [show (([1, 2, 3] : List ℚ).length + 1 - 2) = 2 from rfl]
    exact calcInitSlopeLoop_linear [1, 2, 3] hp 2 2 none le_rfl (by omega) rfl
  · unfold progressiveSlopeSpec
    rw [show List.range' 2 (([1, 2, 3] : List ℚ).length + 1 - 2) = [2, 3]
      from rfl]
    simp only [progressiveSlopeSpecLoop]
    rw [show (([1, 2, 3] : List ℚ).take 2) = [1, 2] from rfl,
      show (([3, 6, 9] : List ℚ).take 2) = [3, 6] from rfl]
    have hz : zeroInterceptSlope [1, 2] [3, 6] = some 3 := by
      norm_num [zeroInterceptSlope, sumSq, dotL]
    have hr : rsqOf [1, 2] [3, 6] 3 = some 1 := by
      norm_num [rsqOf, ssRes, ssTot, meanL]
    rw [hz]
    dsimp only
    rw [hr]
    have hcond : (rsqGe (some 1) (99/100) ||
        ((2 : Nat) == ([1, 2, 3] : List ℚ).length)) = true := by
      simp only [rsqGe, Bool.or_eq_true, decide_eq_true_eq]
      left
      norm_num
    rw [hcond, if_pos rfl]

/-- Witness for C8 at the concrete dataset x = [1, 2, 3], y = [3, 6, 9]. -/
theorem progressive_slope_linear_roundtrip_witness :
    (([1, 2, 3] : List ℚ).Pairwise (· < ·) ∧ 2 ≤ ([1, 2, 3] : List ℚ).length) ∧
    calcInitSlope [1, 2, 3] [3, 6, 9] 2 (99/100) = some ⟨3, some 1, 3⟩ := by
  have hp : ([1, 2, 3] : List ℚ).Pairwise (· < ·) := by
    rw [List.pairwise_cons]
    refine ⟨?_, ?_⟩
    · intro b hb
      rcases List.mem_cons.mp hb with rfl | hb
      · norm_num
      · rw [List.mem_singleton.mp hb]; norm_num
    · rw [List.pairwise_cons]
      refine ⟨?_, List.pairwise_singleton _ _⟩
      intro b hb
      rw [List.mem_singleton.mp hb]
      norm_num
  refine ⟨⟨hp, by norm_num⟩, ?_⟩
  have h := progressive_slope_linear_roundtrip [1, 2, 3] hp (by norm_num)
  rw [show ([1, 2, 3] : List ℚ).map (fun a => 3 * a) = [3, 6, 9]
    from by norm_num] at h
  exact h

/-- Witness for C2: after one concrete create event, every rate group of
the resulting state passes a decidable column-length check. -/
theorem column_alignment_invariant_witness :
    ((runG3 (fun x => x) (fun x => x)
      [(⟨7, some 100000, some 300, some 1, some (1/2), some true, some false⟩,
        false)]).rate_dicts.all fun d =>
        (d.tau.length == d.ref_ids.length) &&
        (d.conversion.length == d.ref_ids.length) &&
        (d.is_active.length == d.ref_ids.length) &&
        (d.is_simulated.length == d.ref_ids.length)) = true := by
  rw [List.all_eq_true]
  intro d hd
  have h := (column_alignment_invariant (fun x => x) (fun x => x)
    [(⟨7, some 100000, some 300, some 1, some (1/2), some true, some false⟩,
      false)]).1 d hd
  obtain ⟨h1, h2, h3, h4⟩ := h
  simp [h1, h2, h3, h4]
